import Mathlib

/-!
# Verification of the chunked parallel gradient-search resampling layer

This development embeds the orchestration layer of `pyresample/gradient/__init__.py`:
the array split/stack primitives (`vsplit`, `hsplit`, `split`,
`reshape_arrays_in_stacked_chunks`, `reshape_to_stacked_3d`), the corner-footprint
culling (`get_corners`, `get_boundary`, `get_polygon`, `remove_extra_chunks`) and the
orchestrating `parallel_gradient_search` with its final NaN-aware maximum reduction.

Arrays are modelled as row-major flat data lists together with a shape, mirroring
numpy's memory model, so that `reshape` is a no-op on data and `take`/`stack`/`split`
are flat-data transforms.  Floating-point values are modelled as `Option ℚ`: `none`
stands for a non-finite value (NaN or infinity), `some q` for a finite value; the
NaN-propagation of arithmetic and the NaN-ignoring maximum are made explicit.

The polygon primitives (shapely) and the per-tile interpolation kernel are external
collaborators of this layer; they are modelled from the spec where noted.
-/

namespace PyGradient

/-- A floating-point value: `none` models a non-finite entry (NaN/inf). -/
abbrev OQ := Option ℚ

/-- Row-major N-dimensional array: a shape and a flat data list. -/
structure NDArr (α : Type) where
  shape : List Nat
  data : List α
  deriving DecidableEq, Repr

instance : Inhabited (NDArr α) := ⟨⟨[], []⟩⟩

/-- Row-major flat index of a multi-index, with accumulator. -/
def flatIdxAux : Nat → List Nat → List Nat → Nat
  | acc, s :: ss, i :: is => flatIdxAux (acc * s + i) ss is
  | acc, _, _ => acc

/-- Row-major flat index of a multi-index in a given shape. -/
def flatIdx (shape idx : List Nat) : Nat := flatIdxAux 0 shape idx

/-- Element of an array at a multi-index (meaningful for full-length, in-range
multi-indices, which is what all theorems quantify over). -/
def NDArr.el (a : NDArr α) (idx : List Nat) : Option α := a.data[flatIdx a.shape idx]?

/-- Concatenation of a list of lists. -/
def concatAll : List (List α) → List α
  | [] => []
  | l :: ls => l ++ concatAll ls

/-- Flat-data semantics of `np.take` of a single index `k` along an axis: the shape
splits into `P` outer positions, extent `L` along the axis and `S` inner positions;
the result keeps, for each outer position, the `k`-th inner run of length `S`. -/
def takeSlices (data : List α) (P L S k : Nat) : List α :=
  concatAll ((List.range P).map (fun p => (data.drop (p * (L * S) + k * S)).take S))

/-- Source `vsplit(arr, n)`: `arr.reshape((n, -1) + arr.shape[1:])` followed by
`np.take(res, k, axis=0)` for each `k < n`; the `-1` extent is inferred as
numpy does, total size divided by the product of the known extents. -/
def vsplit (a : NDArr α) (n : Nat) : List (NDArr α) :=
  let s := a.data.length / (n * a.shape.tail.prod)
  (List.range n).map (fun k =>
    { shape := s :: a.shape.tail,
      data := takeSlices a.data 1 n (s * a.shape.tail.prod) k })

/-- Source `hsplit(arr, n)`: `arr.reshape((arr.shape[0], n, -1) + arr.shape[2:])`
followed by `np.take(res, k, axis=1)` for each `k < n`. -/
def hsplit (a : NDArr α) (n : Nat) : List (NDArr α) :=
  let d0 := a.shape.headD 0
  let rest := (a.shape.drop 2).prod
  let s := a.data.length / (d0 * (n * rest))
  (List.range n).map (fun k =>
    { shape := d0 :: s :: a.shape.drop 2,
      data := takeSlices a.data d0 n (s * rest) k })

/-- Source `split(arr, n, axis)`: reshape to
`shape[:axis] + (n, int(ax_shape / n)) + shape[rest_idx:]` and take each index along
the inserted axis; `axis` may be negative, normalised against the rank exactly as the
Python slicing does. -/
def split (a : NDArr α) (n : Nat) (axis : Int) : List (NDArr α) :=
  let d := a.shape.length
  let pos := (if axis < 0 then (d : Int) + axis else axis).toNat
  let s := a.shape.getD pos 0 / n
  let P := (a.shape.take pos).prod
  let S := s * (a.shape.drop (pos + 1)).prod
  (List.range n).map (fun k =>
    { shape := a.shape.take pos ++ s :: a.shape.drop (pos + 1),
      data := takeSlices a.data P n S k })

/-- `np.stack(layers, axis=-1)` (flat-data form): every layer contributes one slice
along a newly appended trailing axis.  For the 2-D layers of
`reshape_arrays_in_stacked_chunks` this is exactly `np.stack(..., axis=2)`. -/
def npStackLast [Inhabited α] (layers : List (NDArr α)) : NDArr α :=
  let sh := (layers.headD default).shape
  { shape := sh ++ [layers.length],
    data := concatAll ((List.range sh.prod).map
      (fun m => layers.map (fun l => l.data.getD m default))) }

/-- One array's pass through source `reshape_arrays_in_stacked_chunks`: split into
`h_fac` column blocks, each column block into `v_fac` row blocks (columns outer,
rows inner), and stack all blocks along a new trailing tile axis. -/
def stackOne [Inhabited α] (v_fac h_fac : Nat) (a : NDArr α) : NDArr α :=
  npStackLast (concatAll ((hsplit a h_fac).map (fun col => vsplit col v_fac)))

/-- Source `reshape_arrays_in_stacked_chunks(arrays, chunks)`: `chunks` is the dask
chunk structure of the arrays; only the chunk counts `len(chunks[0])`,
`len(chunks[1])` are used. -/
def reshape_arrays_in_stacked_chunks [Inhabited α]
    (arrays : List (NDArr α)) (chunks0 chunks1 : List Nat) : List (NDArr α) :=
  arrays.map (stackOne chunks0.length chunks1.length)

/-- Source `reshape_to_stacked_3d(array)` with chunk counts `x_fac = len(chunks[-1])`,
`y_fac = len(chunks[-2])` passed explicitly: split the last axis into `x_fac` pieces,
each piece's second-to-last axis into `y_fac` pieces (columns outer, rows inner), and
stack all pieces along a new trailing tile axis. -/
def reshape_to_stacked_3d [Inhabited α] (x_fac y_fac : Nat) (a : NDArr α) : NDArr α :=
  npStackLast (concatAll ((split a x_fac (-1)).map (fun col => split col y_fac (-2))))

/-- NaN-propagating subtraction on modelled floats. -/
def osub (x y : OQ) : OQ :=
  match x, y with
  | some a, some b => some (a - b)
  | _, _ => none

/-- NaN-propagating halving on modelled floats. -/
def ohalf (x : OQ) : OQ := x.map (· / 2)

/-- One sample of `np.gradient` along an axis of extent `n`: one-sided differences at
the edges, central differences in the interior. -/
def gradAt (f : Nat → OQ) (n k : Nat) : OQ :=
  if k = 0 then osub (f 1) (f 0)
  else if k = n - 1 then osub (f (n - 1)) (f (n - 2))
  else ohalf (osub (f (k + 1)) (f (k - 1)))

/-- Value of a 2-D array at (i, j), with non-finite default out of range. -/
def gval (a : NDArr OQ) (i j : Nat) : OQ := (a.el [i, j]).getD none

/-- `np.gradient(a, axis=axis)` for a 2-D array. -/
def gradient2D (a : NDArr OQ) (axis : Nat) : NDArr OQ :=
  let r := a.shape.getD 0 0
  let c := a.shape.getD 1 0
  { shape := [r, c],
    data := concatAll ((List.range r).map (fun i => (List.range c).map (fun j =>
      if axis = 0 then gradAt (fun i' => gval a i' j) r i
      else gradAt (fun j' => gval a i j') c j))) }

/-- A planar point of the geometry collaborator. -/
abbrev Point := ℚ × ℚ

/-- Modelled from the spec: a footprint polygon of the external geometry collaborator
(shapely `Polygon`) is represented by its ordered list of finite vertices. -/
abbrev Polygon := List Point

/-- A corner sample of a coordinate array: element `(i, j)` of the first two axes,
index 0 on any trailing axes (the tile pieces carry a trailing axis of extent 1). -/
def cornerVal (a : NDArr OQ) (i j : Nat) : OQ :=
  (a.el (i :: j :: List.replicate (a.shape.length - 2) 0)).getD none

/-- Source `get_corners` for one coordinate array: the four corner samples
`(0,0), (0,-1), (-1,-1), (-1,0)` in that cyclic order. -/
def cornersOf (a : NDArr OQ) : List OQ :=
  let r := a.shape.getD 0 0
  let c := a.shape.getD 1 0
  [cornerVal a 0 0, cornerVal a 0 (c - 1), cornerVal a (r - 1) (c - 1), cornerVal a (r - 1) 0]

/-- Source `get_boundary`: pair up the corner samples of the x and y coordinate
arrays and keep exactly those corners whose x and y are both finite. -/
def get_boundary (xc yc : NDArr OQ) : List Point :=
  ((cornersOf xc).zip (cornersOf yc)).filterMap
    (fun xy => match xy with
      | (some x, some y) => some (x, y)
      | _ => none)

/-- Source `get_polygon`: the footprint polygon through the finite corner points. -/
def get_polygon (xc yc : NDArr OQ) : Polygon := get_boundary xc yc

/-- Modelled from the spec: the external collaborator's polygon area (the shoelace
formula; degenerate vertex lists of fewer than three points have area 0). -/
def polyArea (p : Polygon) : ℚ :=
  |((p.zip (p.rotate 1)).map (fun vw => vw.1.1 * vw.2.2 - vw.2.1 * vw.1.2)).sum| / 2

/-- Signed cross product of `u - a` and `v - a`. -/
def cross (a u v : Point) : ℚ :=
  (u.1 - a.1) * (v.2 - a.2) - (u.2 - a.2) * (v.1 - a.1)

/-- Whether the supporting line of edge `(a, b)` strictly separates polygon `q` from
polygon `p` (touching does not separate: closed-set semantics). -/
def edgeSeparates (a b : Point) (p q : Polygon) : Bool :=
  (p.all (fun v => decide (0 ≤ cross a b v)) && q.all (fun v => decide (cross a b v < 0))) ||
  (p.all (fun v => decide (cross a b v ≤ 0)) && q.all (fun v => decide (0 < cross a b v)))

/-- The cyclic edge list of a polygon. -/
def polyEdges (p : Polygon) : List (Point × Point) := p.zip (p.rotate 1)

/-- Modelled from the spec: the external collaborator's geometric intersection test
(separating-axis test over the corner-footprint polygons; two closed convex polygons
intersect — including mere touching — exactly when no edge line of either strictly
separates them). -/
def polyIntersects (p q : Polygon) : Bool :=
  !((polyEdges p).any (fun e => edgeSeparates e.1 e.2 p q) ||
    (polyEdges q).any (fun e => edgeSeparates e.1 e.2 q p))

/-- Modelled from the spec: shapely's `intersects` as called by the culler; `none`
models a raised `TopologicalError`.  The separating-axis model is total, so this
instantiation never fails. -/
def shapelyIntersects (p q : Polygon) : Option Bool := some (polyIntersects p q)

/-- Keep the entries of one trailing-axis run selected by a boolean mask. -/
def maskBlock (block : List α) (mask : List Bool) : List α :=
  (block.zip mask).filterMap (fun vb => if vb.2 then some vb.1 else none)

/-- Positions of `true` in a boolean mask, in increasing order. -/
def trueIdxs : List Bool → List Nat
  | [] => []
  | b :: bs => if b then 0 :: (trueIdxs bs).map (· + 1) else (trueIdxs bs).map (· + 1)

/-- Boolean-mask selection along the trailing axis: the semantics of
`np.take(arr, covers, axis=-1)` when `arr` is a dask array and `covers` a boolean
list (dask dispatches this to boolean-mask indexing of the last axis). -/
def takeBoolLast (a : NDArr α) (mask : List Bool) : NDArr α :=
  let T := a.shape.getLastD 0
  { shape := a.shape.dropLast ++ [(trueIdxs mask).length],
    data := concatAll ((List.range (a.data.length / T)).map
      (fun p => maskBlock ((a.data.drop (p * T)).take T) mask)) }

/-- The per-tile source footprint polygons: `np.split(src_x, num_chunks, axis=-1)`
(and likewise for y), then `get_polygon` on each piece. -/
def srcPolysOf (sx sy : NDArr OQ) (T : Nat) : List Polygon :=
  ((split sx T (-1)).zip (split sy T (-1))).map (fun xy => get_polygon xy.1 xy.2)

/-- The per-tile keep decisions of source `remove_extra_chunks`: a tile is kept when
the destination polygon is degenerate (zero area), when the intersection predicate
fails (`TopologicalError`, modelled by `none`), or when it reports intersection. -/
def coversOf (intersectsO : Polygon → Polygon → Option Bool)
    (dst_polygon : Polygon) (src_polys : List Polygon) : List Bool :=
  src_polys.map (fun poly =>
    if polyArea dst_polygon = 0 then true
    else (intersectsO dst_polygon poly).getD true)

/-- Source `remove_extra_chunks(arrays, dst_x, dst_y)`, parameterised by the external
intersection predicate: drop from every stacked array the tiles that are not kept. -/
def remove_extra_chunks (intersectsO : Polygon → Polygon → Option Bool)
    (arrays : List (NDArr OQ)) (dst_x dst_y : NDArr OQ) : List (NDArr OQ) :=
  let dst_polygon := get_polygon dst_x dst_y
  let num_chunks := (arrays.headD default).shape.getLastD 0
  let src_polys := srcPolysOf (arrays.getD 1 default) (arrays.getD 2 default) num_chunks
  let covers := coversOf intersectsO dst_polygon src_polys
  arrays.map (fun arr => takeBoolLast arr covers)

/-- NaN-ignoring binary maximum (the reduction step of `np.nanmax`). -/
def nanmax2 (x y : OQ) : OQ :=
  match x, y with
  | some a, some b => some (max a b)
  | some a, none => some a
  | none, v => v

/-- NaN-ignoring maximum of a list of modelled floats; all-NaN reduces to NaN. -/
def nanmaxFold (l : List OQ) : OQ := l.foldl nanmax2 none

/-- `np.nanmax(a, axis=-1)`: reduce the trailing axis with the NaN-ignoring maximum. -/
def nanmaxLast (a : NDArr OQ) : NDArr OQ :=
  let T := a.shape.getLastD 0
  { shape := a.shape.dropLast,
    data := (List.range (a.data.length / T)).map
      (fun p => nanmaxFold ((a.data.drop (p * T)).take T)) }

/-- `np.squeeze` / dask `.squeeze()`: drop every axis of extent 1 (row-major flat data
is unchanged). -/
def squeeze (a : NDArr α) : NDArr α :=
  { shape := a.shape.filter (fun d => d != 1), data := a.data }

/-- Reorder the slices along the trailing tile axis according to an index list. -/
def permuteLast (a : NDArr OQ) (p : List Nat) : NDArr OQ :=
  let T := a.shape.getLastD 0
  { shape := a.shape.dropLast ++ [p.length],
    data := concatAll ((List.range (a.data.length / T)).map
      (fun b => p.map (fun t => a.data.getD (b * T + t) none))) }

/-- Modelled from the spec: the parallel per-tile kernel dispatch
(`da.blockwise` over the external `one_step_gradient_search` kernel, which is not part
of this layer).  It produces a `(bands, dst_rows, dst_cols, tiles)` array whose values
come from the opaque kernel. -/
def gradientDispatch (kernel : Nat → Nat → Nat → Nat → OQ) (B M N Z : Nat) : NDArr OQ :=
  { shape := [B, M, N, Z],
    data := concatAll ((List.range B).map (fun b =>
      concatAll ((List.range M).map (fun m =>
        concatAll ((List.range N).map (fun n =>
          (List.range Z).map (kernel b m n))))))) }

/-- Source `parallel_gradient_search(data, src_x, src_y, dst_x, dst_y)`: reject ranks
other than 2 and 3, promote 2-D data to a single band, compute the coordinate
gradients, stack all arrays into tiles (chunk counts `chunks0`, `chunks1` from the
dask chunk structure, assumed uniform across the arrays as the source's TODO notes),
cull tiles against the destination footprint, dispatch the external kernel per tile,
and reduce with a NaN-ignoring maximum followed by a squeeze. -/
def parallel_gradient_search (kernel : Nat → Nat → Nat → Nat → OQ)
    (dat src_x src_y dst_x dst_y : NDArr OQ) (chunks0 chunks1 : List Nat) :
    Except String (NDArr OQ) :=
  if dat.shape.length = 2 ∨ dat.shape.length = 3 then
    let dat3 : NDArr OQ := if dat.shape.length = 2 then ⟨1 :: dat.shape, dat.data⟩ else dat
    let gxl := gradient2D src_x 0
    let gxp := gradient2D src_x 1
    let gyl := gradient2D src_y 0
    let gyp := gradient2D src_y 1
    let stacked := reshape_arrays_in_stacked_chunks [src_x, src_y, gxl, gxp, gyl, gyp]
      chunks0 chunks1
    let dat3s := reshape_to_stacked_3d chunks1.length chunks0.length dat3
    let culled := remove_extra_chunks shapelyIntersects (dat3s :: stacked) dst_x dst_y
    let cdat := culled.headD default
    let B := cdat.shape.getD 0 0
    let M := dst_x.shape.getD 0 0
    let N := dst_x.shape.getD 1 0
    let Z := cdat.shape.getLastD 0
    Except.ok (squeeze (nanmaxLast (gradientDispatch kernel B M N Z)))
  else Except.error "Gradient search resampling only supports 2D or 3D arrays."

/-- Shape of a successful resampling result (empty shape for the error case). -/
def resShape : Except String (NDArr OQ) → List Nat
  | Except.ok a => a.shape
  | Except.error _ => []

/-- Modelled from the spec: the inverse reconstruction of the split/stack round-trip,
un-stacking the trailing tile axis (tiles ordered columns outer, rows inner) back
into the R×C chunk grid. -/
def unstackTiles (R C r c : Nat) (st : NDArr OQ) : NDArr OQ :=
  { shape := [R * r, C * c],
    data := concatAll ((List.range (R * r)).map (fun i =>
      (List.range (C * c)).map (fun j =>
        (st.el [i % r, j % c, (j / c) * R + i / r]).getD none))) }

/-! ## Concrete instances

A 4×4 source coordinate grid with unit spacing (x = column index, y = row index),
split into 2×2 chunks of 2×2 pixels, and a 2×2 destination grid covering exactly the
coordinate range of the top-left quadrant. -/

/-- Concrete 4×4 source x-coordinates: x(i, j) = j. -/
def cSrcX : NDArr OQ :=
  ⟨[4, 4], [some 0, some 1, some 2, some 3, some 0, some 1, some 2, some 3,
            some 0, some 1, some 2, some 3, some 0, some 1, some 2, some 3]⟩

/-- Concrete 4×4 source y-coordinates: y(i, j) = i. -/
def cSrcY : NDArr OQ :=
  ⟨[4, 4], [some 0, some 0, some 0, some 0, some 1, some 1, some 1, some 1,
            some 2, some 2, some 2, some 2, some 3, some 3, some 3, some 3]⟩

/-- Concrete 2×2 destination x-coordinates covering x ∈ [0, 1]. -/
def cDstX : NDArr OQ := ⟨[2, 2], [some 0, some 1, some 0, some 1]⟩

/-- Concrete 2×2 destination y-coordinates covering y ∈ [0, 1]. -/
def cDstY : NDArr OQ := ⟨[2, 2], [some 0, some 0, some 1, some 1]⟩

/-- Concrete single-band 1×4×4 data array. -/
def cData1 : NDArr OQ := ⟨[1, 4, 4], (List.range 16).map (fun k => (some (k : ℚ) : OQ))⟩

/-- Concrete two-band 2×4×4 data array. -/
def cData2 : NDArr OQ := ⟨[2, 4, 4], (List.range 32).map (fun k => (some (k : ℚ) : OQ))⟩

/-- A concrete opaque kernel for exercising the dispatch model. -/
def cKernel : Nat → Nat → Nat → Nat → OQ := fun _ _ _ _ => some 0

/-- The concrete stacked input set of the 4×4 scenario: data tiles first, then the
stacked coordinates and the four stacked gradient components. -/
def cStacked : List (NDArr OQ) :=
  reshape_to_stacked_3d 2 2 cData1 ::
    reshape_arrays_in_stacked_chunks
      [cSrcX, cSrcY, gradient2D cSrcX 0, gradient2D cSrcX 1,
       gradient2D cSrcY 0, gradient2D cSrcY 1] [2, 2] [2, 2]

/-- The per-tile intersection verdicts against the destination footprint. -/
def intersectMask (dx dy sx sy : NDArr OQ) (T : Nat) : List Bool :=
  (srcPolysOf sx sy T).map (fun p => polyIntersects (get_polygon dx dy) p)

/-- An intersection oracle that always fails with a TopologicalError. -/
def cOrcNone : Polygon → Polygon → Option Bool := fun _ _ => none

/-- Concrete 1×1 destination grid: its footprint polygon is a single point, area 0. -/
def cPt : NDArr OQ := ⟨[1, 1], [some 0]⟩

/-- Concrete stacked array with 2 tiles along the trailing axis. -/
def cA : NDArr OQ := ⟨[2, 2], [some 0, some 1, some 2, some 3]⟩

/-- Concrete all-non-finite 2×2 coordinate array. -/
def cNaN : NDArr OQ := ⟨[2, 2], [none, none, none, none]⟩

/-! ## Core lemmas: flat indices and uniform concatenation -/

theorem flatIdxAux_eq (s : List Nat) :
    ∀ (i : List Nat) (acc : Nat), s.length = i.length →
      flatIdxAux acc s i = acc * s.prod + flatIdx s i := by
  induction s with
  | nil =>
    intro i acc h
    cases i with
    | nil => simp [flatIdxAux, flatIdx]
    | cons x xs => simp at h
  | cons d ds ih =>
    intro i acc h
    cases i with
    | nil => simp at h
    | cons x xs =>
      simp only [List.length_cons, Nat.succ_inj] at h
      simp only [flatIdxAux, flatIdx, List.prod_cons]
      rw [ih xs (acc * d + x) h, ih xs (0 * d + x) h]
      ring

theorem flatIdxAux_append (s₁ : List Nat) :
    ∀ (i₁ : List Nat) (s₂ i₂ : List Nat) (acc : Nat), s₁.length = i₁.length →
      flatIdxAux acc (s₁ ++ s₂) (i₁ ++ i₂) = flatIdxAux (flatIdxAux acc s₁ i₁) s₂ i₂ := by
  induction s₁ with
  | nil =>
    intro i₁ s₂ i₂ acc h
    cases i₁ with
    | nil => simp [flatIdxAux]
    | cons x xs => simp at h
  | cons d ds ih =>
    intro i₁ s₂ i₂ acc h
    cases i₁ with
    | nil => simp at h
    | cons x xs =>
      simp only [List.length_cons, Nat.succ_inj] at h
      simp only [List.cons_append, flatIdxAux]
      exact ih xs s₂ i₂ (acc * d + x) h

theorem flatIdx_append (s₁ i₁ s₂ i₂ : List Nat)
    (h₁ : s₁.length = i₁.length) (h₂ : s₂.length = i₂.length) :
    flatIdx (s₁ ++ s₂) (i₁ ++ i₂) = flatIdx s₁ i₁ * s₂.prod + flatIdx s₂ i₂ := by
  unfold flatIdx
  rw [flatIdxAux_append s₁ i₁ s₂ i₂ 0 h₁, flatIdxAux_eq s₂ i₂ (flatIdxAux 0 s₁ i₁) h₂]
  rfl

theorem flatIdx_lt {i s : List Nat} (h : List.Forall₂ (· < ·) i s) :
    flatIdx s i < s.prod := by
  induction h with
  | nil => simp [flatIdx, flatIdxAux]
  | @cons x d xs ds hx _ ih =>
    have hlen : ds.length = xs.length := (List.Forall₂.length_eq (by assumption)).symm
    show flatIdxAux 0 (d :: ds) (x :: xs) < (d :: ds).prod
    simp only [flatIdxAux, List.prod_cons]
    rw [flatIdxAux_eq ds xs (0 * d + x) hlen]
    simp only [Nat.zero_mul, Nat.zero_add]
    have h1 : x * ds.prod + flatIdx ds xs < (x + 1) * ds.prod := by
      have := ih
      nlinarith
    have h2 : (x + 1) * ds.prod ≤ d * ds.prod :=
      Nat.mul_le_mul_right _ (Nat.succ_le_of_lt hx)
    omega

theorem concatAll_length_uniform (ls : List (List α)) (c : Nat)
    (h : ∀ l ∈ ls, l.length = c) : (concatAll ls).length = ls.length * c := by
  induction ls with
  | nil => simp [concatAll]
  | cons l ls ih =>
    simp only [concatAll, List.length_append, List.length_cons]
    rw [h l (List.mem_cons_self l ls), ih (fun x hx => h x (List.mem_cons_of_mem l hx))]
    ring

theorem concatAll_getElem? (c q : Nat) (hq : q < c) :
    ∀ (ls : List (List α)) (p : Nat), (∀ l ∈ ls, l.length = c) →
      (concatAll ls)[p * c + q]? = ls[p]?.bind (fun l => l[q]?) := by
  intro ls
  induction ls with
  | nil => intro p h; simp [concatAll]
  | cons l ls ih =>
    intro p h
    have hl : l.length = c := h l (List.mem_cons_self l ls)
    cases p with
    | zero =>
      simp only [concatAll, Nat.zero_mul, Nat.zero_add]
      rw [List.getElem?_append_left (by omega)]
      simp
    | succ p =>
      simp only [concatAll]
      have hk : l.length ≤ (p + 1) * c + q := by
        rw [hl]; nlinarith
      rw [List.getElem?_append_right hk]
      have harith : (p + 1) * c + q - l.length = p * c + q := by
        rw [hl, Nat.succ_mul]; omega
      rw [harith, ih p (fun x hx => h x (List.mem_cons_of_mem l hx))]
      simp

theorem concat_chunks (T : Nat) :
    ∀ (m : Nat) (data : List α), data.length = m * T →
      concatAll ((List.range m).map (fun p => (data.drop (p * T)).take T)) = data := by
  intro m
  induction m with
  | zero =>
    intro data h
    simp at h
    simp [concatAll, h]
  | succ m ih =>
    intro data h
    rw [List.range_succ_eq_map]
    simp only [List.map_cons, List.map_map, concatAll, Nat.zero_mul, List.drop_zero]
    have hstep : ∀ p : Nat,
        (data.drop ((p + 1) * T)).take T = ((data.drop T).drop (p * T)).take T := by
      intro p
      rw [List.drop_drop]
      congr 1
      ring_nf
    have hmap : (List.range m).map ((fun p => (data.drop (p * T)).take T) ∘ (· + 1))
        = (List.range m).map (fun p => ((data.drop T).drop (p * T)).take T) := by
      apply List.map_congr_left
      intro p _
      exact hstep p
    rw [hmap, ih (data.drop T) (by rw [List.length_drop, h, Nat.succ_mul]; omega)]
    exact List.take_append_drop T data

theorem concat_extract (c : Nat) :
    ∀ (ls : List (List α)), (∀ l ∈ ls, l.length = c) →
      ∀ b : Nat, b < ls.length → ((concatAll ls).drop (b * c)).take c = ls.getD b [] := by
  intro ls
  induction ls with
  | nil => intro _ b hb; simp at hb
  | cons l ls ih =>
    intro h b hb
    have hl : l.length = c := h l (List.mem_cons_self l ls)
    cases b with
    | zero =>
      simp only [Nat.zero_mul, List.drop_zero, concatAll, List.getD_cons_zero]
      rw [← hl, List.take_left]
    | succ b =>
      simp only [concatAll, List.getD_cons_succ]
      have hdrop : (l ++ concatAll ls).drop ((b + 1) * c) = (concatAll ls).drop (b * c) := by
        have h1 : (b + 1) * c = l.length + b * c := by rw [hl]; ring
        rw [h1, List.drop_append]
      rw [hdrop]
      exact ih (fun x hx => h x (List.mem_cons_of_mem l hx)) b (by simpa using hb)

theorem block_as_map (data : List α) (o T : Nat) (d : α) (h : o + T ≤ data.length) :
    (data.drop o).take T = (List.range T).map (fun t => data.getD (o + t) d) := by
  apply List.ext_getElem
  · simp; omega
  · intro t ht1 ht2
    have htT : t < T := by simpa using ht2
    have hin : o + t < data.length := by omega
    rw [List.getElem_take, List.getElem_drop]
    rw [List.getElem_map, List.getElem_range]
    rw [List.getD_eq_getElem data d hin]

theorem slice_bound (P L S p k : Nat) (hp : p < P) (hk : k < L) :
    p * (L * S) + k * S + S ≤ P * (L * S) := by
  have h1 : k * S + S ≤ L * S := by
    have := Nat.mul_le_mul_right S (Nat.succ_le_of_lt hk)
    simpa [Nat.succ_mul] using this
  have h2 : p * (L * S) + L * S ≤ P * (L * S) := by
    have := Nat.mul_le_mul_right (L * S) (Nat.succ_le_of_lt hp)
    simpa [Nat.succ_mul] using this
  omega

theorem takeSlices_seg_length (data : List α) (P L S k : Nat)
    (h : data.length = P * (L * S)) (hk : k < L) :
    ∀ l ∈ (List.range P).map (fun p => (data.drop (p * (L * S) + k * S)).take S),
      l.length = S := by
  intro l hl
  simp only [List.mem_map, List.mem_range] at hl
  obtain ⟨p, hp, rfl⟩ := hl
  have := slice_bound P L S p k hp hk
  simp [h]
  omega

theorem takeSlices_length (data : List α) (P L S k : Nat)
    (h : data.length = P * (L * S)) (hk : k < L) :
    (takeSlices data P L S k).length = P * S := by
  unfold takeSlices
  rw [concatAll_length_uniform _ S (takeSlices_seg_length data P L S k h hk)]
  simp

theorem takeSlices_getElem? (data : List α) (P L S k p q : Nat)
    (h : data.length = P * (L * S)) (hp : p < P) (hk : k < L) (hq : q < S) :
    (takeSlices data P L S k)[p * S + q]? = data[p * (L * S) + k * S + q]? := by
  unfold takeSlices
  rw [concatAll_getElem? S q hq _ p (takeSlices_seg_length data P L S k h hk)]
  rw [List.getElem?_map]
  rw [List.getElem?_range hp]
  simp only [Option.map_some', Option.some_bind]
  rw [List.getElem?_take_of_lt hq, List.getElem?_drop]

/-! ## The split piece lemma -/

theorem flatIdx_cons (d : Nat) (ds : List Nat) (x : Nat) (xs : List Nat)
    (h : ds.length = xs.length) :
    flatIdx (d :: ds) (x :: xs) = x * ds.prod + flatIdx ds xs := by
  show flatIdxAux (0 * d + x) ds xs = x * ds.prod + flatIdx ds xs
  rw [flatIdxAux_eq ds xs (0 * d + x) h]
  ring

theorem take_pre (pre suf : List Nat) (x : Nat) :
    (pre ++ x :: suf).take pre.length = pre :=
  List.take_left pre (x :: suf)

theorem getD_mid (pre suf : List Nat) (x : Nat) :
    (pre ++ x :: suf).getD pre.length 0 = x := by
  rw [List.getD_eq_getElem?_getD, List.getElem?_append_right (Nat.le_refl _)]
  simp

theorem drop_mid (pre suf : List Nat) (x : Nat) :
    (pre ++ x :: suf).drop (pre.length + 1) = suf := by
  have h : pre ++ x :: suf = (pre ++ [x]) ++ suf := by simp
  have h2 : pre.length + 1 = (pre ++ [x]).length := by simp
  rw [h, h2, List.drop_left]

theorem getD_range_map {β : Type} (f : Nat → β) (n k : Nat) (d : β) (hk : k < n) :
    ((List.range n).map f).getD k d = f k := by
  rw [List.getD_eq_getElem?_getD, List.getElem?_map, List.getElem?_range hk]
  rfl

theorem piece_el {α : Type} (pre suf : List Nat) (n s : Nat) (data : List α)
    (k j : Nat) (ip isuf : List Nat)
    (hlen : data.length = (pre ++ (n * s) :: suf).prod)
    (hip : List.Forall₂ (· < ·) ip pre) (hsuf : List.Forall₂ (· < ·) isuf suf)
    (hj : j < s) (hk : k < n) :
    NDArr.el ⟨pre ++ s :: suf, takeSlices data pre.prod n (s * suf.prod) k⟩
        (ip ++ j :: isuf)
      = NDArr.el ⟨pre ++ (n * s) :: suf, data⟩ (ip ++ (k * s + j) :: isuf) := by
  have hlip : pre.length = ip.length := hip.length_eq.symm
  have hlsuf : suf.length = isuf.length := hsuf.length_eq.symm
  have hp : flatIdx pre ip < pre.prod := flatIdx_lt hip
  have hfs : flatIdx suf isuf < suf.prod := flatIdx_lt hsuf
  have hq : j * suf.prod + flatIdx suf isuf < s * suf.prod := by
    have h1 : j * suf.prod + suf.prod ≤ s * suf.prod := by
      have := Nat.mul_le_mul_right suf.prod (Nat.succ_le_of_lt hj)
      simpa [Nat.succ_mul] using this
    omega
  unfold NDArr.el
  simp only
  rw [flatIdx_append pre ip (s :: suf) (j :: isuf) hlip (by simp [hlsuf])]
  rw [flatIdx_append pre ip ((n * s) :: suf) ((k * s + j) :: isuf) hlip (by simp [hlsuf])]
  rw [flatIdx_cons s suf j isuf hlsuf, flatIdx_cons (n * s) suf (k * s + j) isuf hlsuf]
  have hlen' : data.length = pre.prod * (n * (s * suf.prod)) := by
    rw [hlen, List.prod_append, List.prod_cons]
    ring
  have hLHS : flatIdx pre ip * (s :: suf).prod + (j * suf.prod + flatIdx suf isuf)
      = flatIdx pre ip * (s * suf.prod) + (j * suf.prod + flatIdx suf isuf) := by
    rw [List.prod_cons]
  rw [hLHS]
  rw [takeSlices_getElem? data pre.prod n (s * suf.prod) k (flatIdx pre ip)
    (j * suf.prod + flatIdx suf isuf) hlen' hp hk hq]
  congr 1
  simp only [List.prod_cons]
  ring

theorem split_eq {α : Type} (pre suf : List Nat) (n s : Nat) (a : NDArr α) (axis : Int)
    (ha : a.shape = pre ++ (n * s) :: suf) (hn : 0 < n)
    (haxis : axis = (pre.length : Int) ∨ axis = (pre.length : Int) - (a.shape.length : Int)) :
    split a n axis = (List.range n).map (fun k =>
      ⟨pre ++ s :: suf, takeSlices a.data pre.prod n (s * suf.prod) k⟩) := by
  have hsl : a.shape.length = pre.length + 1 + suf.length := by
    rw [ha]; simp; omega
  have hpos : (if axis < 0 then ((a.shape.length : Int)) + axis else axis).toNat
      = pre.length := by
    rcases haxis with h | h
    · subst h
      rw [if_neg (by omega)]
      omega
    · subst h
      rw [hsl, if_pos (by omega)]
      omega
  simp only [split, hpos]
  apply List.map_congr_left
  intro k _
  rw [ha, take_pre, getD_mid, drop_mid, Nat.mul_div_cancel_left s hn]

theorem vsplit_eq {α : Type} (s' : Nat) (suf : List Nat) (n : Nat) (a : NDArr α)
    (ha : a.shape = (n * s') :: suf)
    (hlen : a.data.length = a.shape.prod)
    (hn : 0 < n) (hsuf : 0 < suf.prod) :
    vsplit a n = (List.range n).map (fun k =>
      ⟨([] : List Nat) ++ s' :: suf,
        takeSlices a.data ([] : List Nat).prod n (s' * suf.prod) k⟩) := by
  have hs : a.data.length / (n * suf.prod) = s' := by
    rw [hlen, ha]
    simp only [List.prod_cons]
    rw [show n * s' * suf.prod = n * suf.prod * s' by ring]
    exact Nat.mul_div_cancel_left s' (by positivity)
  simp only [vsplit, ha, List.tail_cons, hs]
  apply List.map_congr_left
  intro k _
  simp

theorem hsplit_eq {α : Type} (d0 s' : Nat) (suf : List Nat) (n : Nat) (a : NDArr α)
    (ha : a.shape = d0 :: (n * s') :: suf)
    (hlen : a.data.length = a.shape.prod)
    (hd0 : 0 < d0) (hn : 0 < n) (hsuf : 0 < suf.prod) :
    hsplit a n = (List.range n).map (fun k =>
      ⟨[d0] ++ s' :: suf, takeSlices a.data ([d0] : List Nat).prod n (s' * suf.prod) k⟩) := by
  have hs : a.data.length / (d0 * (n * suf.prod)) = s' := by
    rw [hlen, ha]
    simp only [List.prod_cons]
    rw [show d0 * (n * s' * suf.prod) = d0 * (n * suf.prod) * s' by ring]
    exact Nat.mul_div_cancel_left s' (by positivity)
  simp only [hsplit, ha, List.headD_cons, List.drop_succ_cons, List.drop_zero, hs]
  apply List.map_congr_left
  intro k _
  simp

/-- C8: for every N-dimensional array whose target axis has extent `n * s`, `split`
returns exactly `n` sub-arrays, each of extent `s` along that axis with all other
axes preserved, and piece `k` is exactly the `k`-th contiguous run of the original
array along that axis — for the axis given either as a non-negative or as the
equivalent negative Python axis index. -/
theorem claim_C8 {α : Type} (pre suf : List Nat) (n s : Nat) (a : NDArr α) (axis : Int)
    (ha : a.shape = pre ++ (n * s) :: suf)
    (hlen : a.data.length = a.shape.prod)
    (hn : 0 < n)
    (haxis : axis = (pre.length : Int) ∨ axis = (pre.length : Int) - (a.shape.length : Int)) :
    (split a n axis).length = n ∧
    (∀ k, k < n → ((split a n axis).getD k default).shape = pre ++ s :: suf) ∧
    (∀ k j ip isuf, k < n → j < s →
      List.Forall₂ (· < ·) ip pre → List.Forall₂ (· < ·) isuf suf →
      ((split a n axis).getD k default).el (ip ++ j :: isuf)
        = a.el (ip ++ (k * s + j) :: isuf)) := by
  rw [split_eq pre suf n s a axis ha hn haxis]
  refine ⟨by simp, ?_, ?_⟩
  · intro k hk
    rw [getD_range_map _ n k default hk]
  · intro k j ip isuf hk hj hip hisuf
    rw [getD_range_map _ n k default hk]
    have hpe := piece_el pre suf n s a.data k j ip isuf (by rw [← ha]; exact hlen) hip hisuf hj hk
    rw [hpe]
    show NDArr.el ⟨pre ++ (n * s) :: suf, a.data⟩ _ = a.el _
    rw [show (⟨pre ++ (n * s) :: suf, a.data⟩ : NDArr α) = a by rw [← ha]]

/-- Witness for C8 at a concrete input: `[10, 20, 30, 40]` split in two pieces along
axis 0; the second piece's second element is the original element at index 3. -/
theorem claim_C8_witness :
    (split (⟨[4], [10, 20, 30, 40]⟩ : NDArr Nat) 2 0).length = 2 ∧
    ((split (⟨[4], [10, 20, 30, 40]⟩ : NDArr Nat) 2 0).getD 1 default).el [1] = some 40 := by
  have h := claim_C8 [] [] 2 2 (⟨[4], [10, 20, 30, 40]⟩ : NDArr Nat) 0 (by decide)
    (by decide) (by decide) (Or.inl (by decide))
  refine ⟨h.1, ?_⟩
  have h3 := h.2.2 1 1 [] [] (by decide) (by decide) List.Forall₂.nil List.Forall₂.nil
  exact h3.trans (by decide)

/-! ## Stacking lemmas -/

theorem npStackLast_el {α : Type} [Inhabited α] (layers : List (NDArr α)) (sh : List Nat)
    (t : Nat) (idx : List Nat)
    (hne : layers ≠ [])
    (hsh : ∀ l ∈ layers, l.shape = sh)
    (hlen : ∀ l ∈ layers, l.data.length = sh.prod)
    (hidx : List.Forall₂ (· < ·) idx sh) (ht : t < layers.length) :
    (npStackLast layers).el (idx ++ [t]) = (layers.getD t default).el idx := by
  have hhead : (layers.headD default).shape = sh := by
    cases layers with
    | nil => exact absurd rfl hne
    | cons l ls => exact hsh l (List.mem_cons_self l ls)
  have hfi : flatIdx sh idx < sh.prod := flatIdx_lt hidx
  have hidxlen : sh.length = idx.length := hidx.length_eq.symm
  unfold npStackLast NDArr.el
  simp only [hhead]
  rw [flatIdx_append sh idx [layers.length] [t] hidxlen rfl]
  have hone : flatIdx [layers.length] [t] = t := by simp [flatIdx, flatIdxAux]
  have hprodone : ([layers.length] : List Nat).prod = layers.length := by simp
  rw [hone, hprodone]
  rw [concatAll_getElem? layers.length t ht _ (flatIdx sh idx)
    (by intro l hl; simp only [List.mem_map, List.mem_range] at hl
        obtain ⟨m, _, rfl⟩ := hl; simp)]
  rw [List.getElem?_map, List.getElem?_range hfi]
  simp only [Option.map_some', Option.some_bind]
  rw [List.getElem?_map]
  rw [List.getElem?_eq_getElem ht]
  simp only [Option.map_some']
  have hlt : layers.getD t default = layers[t] := List.getD_eq_getElem layers default ht
  rw [hlt]
  have hshape : (layers[t]).shape = sh := hsh layers[t] (List.getElem_mem ht)
  have hdlen : (layers[t]).data.length = sh.prod := hlen layers[t] (List.getElem_mem ht)
  rw [hshape]
  rw [List.getElem?_eq_getElem (by omega)]
  rw [List.getD_eq_getElem (layers[t]).data default (by omega)]

theorem concat_range_map_length {β : Type} (C R : Nat) (f : Nat → Nat → β) :
    (concatAll ((List.range C).map (fun cb => (List.range R).map (fun rb => f cb rb)))).length
      = C * R := by
  rw [concatAll_length_uniform _ R]
  · simp
  · intro l hl
    simp only [List.mem_map, List.mem_range] at hl
    obtain ⟨cb, _, rfl⟩ := hl
    simp

theorem concat_range_map_getD {β : Type} (C R : Nat) (f : Nat → Nat → β) (cb rb : Nat)
    (d : β) (hcb : cb < C) (hrb : rb < R) :
    (concatAll ((List.range C).map (fun x => (List.range R).map
      (fun y => f x y)))).getD (cb * R + rb) d = f cb rb := by
  rw [List.getD_eq_getElem?_getD]
  rw [concatAll_getElem? R rb hrb _ cb
    (by intro l hl; simp only [List.mem_map, List.mem_range] at hl
        obtain ⟨x, _, rfl⟩ := hl; simp)]
  rw [List.getElem?_map, List.getElem?_range hcb]
  simp only [Option.map_some', Option.some_bind]
  rw [List.getElem?_map, List.getElem?_range hrb]
  simp

theorem mul_add_lt (x X y Y : Nat) (hx : x < X) (hy : y < Y) : x * Y + y < X * Y := by
  have h1 : x * Y + Y ≤ X * Y := by
    have := Nat.mul_le_mul_right Y (Nat.succ_le_of_lt hx)
    simpa [Nat.succ_mul] using this
  omega

theorem concatAll_mem {β : Type} (ls : List (List β)) (x : β) :
    x ∈ concatAll ls ↔ ∃ l ∈ ls, x ∈ l := by
  induction ls with
  | nil => simp [concatAll]
  | cons l ls ih => simp [concatAll, List.mem_append, ih]

theorem stackOne_spec {α : Type} [Inhabited α] (R C r c : Nat) (a : NDArr α)
    (ha : a.shape = [R * r, C * c])
    (hlen : a.data.length = R * r * (C * c))
    (hR : 0 < R) (hC : 0 < C) (hr : 0 < r) (hc : 0 < c) :
    (stackOne R C a).shape = [r, c, C * R] ∧
    ∀ i j t, i < r → j < c → t < R * C →
      (stackOne R C a).el [i, j, t] = a.el [t % R * r + i, t / R * c + j] := by
  have hlen' : a.data.length = a.shape.prod := by rw [ha]; simpa using hlen
  have hcol_len : ∀ cb, cb < C → (takeSlices a.data (R * r) C c cb).length = R * r * c :=
    fun cb hcb => takeSlices_length a.data (R * r) C c cb hlen hcb
  have hcols : hsplit a C = (List.range C).map (fun cb =>
      (⟨[R * r, c], takeSlices a.data (R * r) C c cb⟩ : NDArr α)) := by
    rw [hsplit_eq (R * r) c [] C a ha hlen' (by positivity) hC (by simp)]
    apply List.map_congr_left
    intro cb _
    simp
  have hvs : ∀ cb, cb < C →
      vsplit (⟨[R * r, c], takeSlices a.data (R * r) C c cb⟩ : NDArr α) R
        = (List.range R).map (fun rb =>
            (⟨[r, c], takeSlices (takeSlices a.data (R * r) C c cb) 1 R (r * c) rb⟩
              : NDArr α)) := by
    intro cb hcb
    rw [vsplit_eq r [c] R _ rfl (by simpa using hcol_len cb hcb) hR (by simpa using hc)]
    apply List.map_congr_left
    intro rb _
    simp
  have hlayers : (hsplit a C).map (fun col => vsplit col R)
      = (List.range C).map (fun cb => (List.range R).map (fun rb =>
          (⟨[r, c], takeSlices (takeSlices a.data (R * r) C c cb) 1 R (r * c) rb⟩
            : NDArr α))) := by
    rw [hcols, List.map_map]
    apply List.map_congr_left
    intro cb hcb
    simp only [Function.comp_apply]
    exact hvs cb (List.mem_range.mp hcb)
  have hstack : stackOne R C a = npStackLast (concatAll ((List.range C).map (fun cb =>
      (List.range R).map (fun rb =>
        (⟨[r, c], takeSlices (takeSlices a.data (R * r) C c cb) 1 R (r * c) rb⟩
          : NDArr α))))) := by
    unfold stackOne
    rw [hlayers]
  have htile_len : ∀ cb rb, cb < C → rb < R →
      (takeSlices (takeSlices a.data (R * r) C c cb) 1 R (r * c) rb).length = r * c := by
    intro cb rb hcb hrb
    have h1 := hcol_len cb hcb
    have h2 := takeSlices_length (takeSlices a.data (R * r) C c cb) 1 R (r * c) rb
      (by rw [h1]; ring) hrb
    simpa using h2
  have hbiglen : (concatAll ((List.range C).map (fun cb => (List.range R).map (fun rb =>
      (⟨[r, c], takeSlices (takeSlices a.data (R * r) C c cb) 1 R (r * c) rb⟩
        : NDArr α))))).length = C * R :=
    concat_range_map_length C R _
  have hmems : ∀ l ∈ concatAll ((List.range C).map (fun cb => (List.range R).map (fun rb =>
      (⟨[r, c], takeSlices (takeSlices a.data (R * r) C c cb) 1 R (r * c) rb⟩
        : NDArr α)))), l.shape = [r, c] ∧ l.data.length = ([r, c] : List Nat).prod := by
    intro l hl
    rw [concatAll_mem] at hl
    obtain ⟨inner, hinner, hlmem⟩ := hl
    simp only [List.mem_map, List.mem_range] at hinner
    obtain ⟨cb, hcb, rfl⟩ := hinner
    simp only [List.mem_map, List.mem_range] at hlmem
    obtain ⟨rb, hrb, rfl⟩ := hlmem
    refine ⟨rfl, ?_⟩
    rw [htile_len cb rb hcb hrb]
    simp
  have hne : concatAll ((List.range C).map (fun cb => (List.range R).map (fun rb =>
      (⟨[r, c], takeSlices (takeSlices a.data (R * r) C c cb) 1 R (r * c) rb⟩
        : NDArr α)))) ≠ [] := by
    intro h0
    have := hbiglen
    rw [h0] at this
    simp at this
    rcases this with h | h
    · omega
    · omega
  rw [hstack]
  constructor
  · have hhead : ((concatAll ((List.range C).map (fun cb => (List.range R).map (fun rb =>
        (⟨[r, c], takeSlices (takeSlices a.data (R * r) C c cb) 1 R (r * c) rb⟩
          : NDArr α))))).headD default).shape = [r, c] := by
      cases hcl : concatAll ((List.range C).map (fun cb => (List.range R).map (fun rb =>
          (⟨[r, c], takeSlices (takeSlices a.data (R * r) C c cb) 1 R (r * c) rb⟩
            : NDArr α)))) with
      | nil => exact absurd hcl hne
      | cons x xs =>
        have hx := (hmems x (by rw [hcl]; exact List.mem_cons_self x xs)).1
        simp [hx]
    simp only [npStackLast, hhead, hbiglen]
    rfl
  · intro i j t hi hj ht
    have hmod : t % R < R := Nat.mod_lt t hR
    have hdiv : t / R < C := by
      rw [Nat.div_lt_iff_lt_mul hR, Nat.mul_comm C R]
      exact ht
    have hel := npStackLast_el (concatAll ((List.range C).map (fun cb =>
        (List.range R).map (fun rb =>
          (⟨[r, c], takeSlices (takeSlices a.data (R * r) C c cb) 1 R (r * c) rb⟩
            : NDArr α))))) [r, c] t [i, j] hne
      (fun l hl => (hmems l hl).1) (fun l hl => (hmems l hl).2)
      (List.Forall₂.cons hi (List.Forall₂.cons hj List.Forall₂.nil))
      (by rw [hbiglen, Nat.mul_comm C R]; exact ht)
    have hgd := concat_range_map_getD C R (fun cb rb =>
        (⟨[r, c], takeSlices (takeSlices a.data (R * r) C c cb) 1 R (r * c) rb⟩
          : NDArr α)) (t / R) (t % R) default hdiv hmod
    have hsp : t / R * R + t % R = t := by
      have h := Nat.div_add_mod t R
      rw [Nat.mul_comm] at h
      omega
    rw [hsp] at hgd
    show (npStackLast _).el ([i, j] ++ [t]) = _
    rw [hel, hgd]
    have hpe1 := piece_el ([] : List Nat) [c] R r (takeSlices a.data (R * r) C c (t / R))
      (t % R) i [] [j]
      (by rw [hcol_len (t / R) hdiv]; simp)
      List.Forall₂.nil (List.Forall₂.cons hj List.Forall₂.nil) hi hmod
    simp only [List.nil_append, List.prod_nil, List.prod_singleton] at hpe1
    rw [hpe1]
    have hpe2 := piece_el [R * r] ([] : List Nat) C c a.data (t / R) j [t % R * r + i] []
      (by rw [hlen]; simp)
      (List.Forall₂.cons (mul_add_lt (t % R) R i r hmod hi) List.Forall₂.nil)
      List.Forall₂.nil hj hdiv
    simp only [List.prod_singleton, List.prod_nil, Nat.mul_one, List.cons_append,
      List.nil_append] at hpe2
    rw [hpe2]
    have haeq : (⟨[R * r, C * c], a.data⟩ : NDArr α) = a := by
      rw [← ha]
    rw [haeq]

theorem stack3d_spec {α : Type} [Inhabited α] (B R C r c : Nat) (a : NDArr α)
    (ha : a.shape = [B, R * r, C * c])
    (hlen : a.data.length = B * (R * r) * (C * c))
    (_hB : 0 < B) (hR : 0 < R) (hC : 0 < C) (_hr : 0 < r) (_hc : 0 < c) :
    (reshape_to_stacked_3d C R a).shape = [B, r, c, C * R] ∧
    ∀ b i j t, b < B → i < r → j < c → t < R * C →
      (reshape_to_stacked_3d C R a).el [b, i, j, t]
        = a.el [b, t % R * r + i, t / R * c + j] := by
  have hlen' : a.data.length = a.shape.prod := by rw [ha]; simp [hlen]; ring
  have hcol_len : ∀ cb, cb < C →
      (takeSlices a.data (B * (R * r)) C c cb).length = B * (R * r) * c :=
    fun cb hcb => takeSlices_length a.data (B * (R * r)) C c cb hlen hcb
  have hcols : split a C (-1) = (List.range C).map (fun cb =>
      (⟨[B, R * r, c], takeSlices a.data (B * (R * r)) C c cb⟩ : NDArr α)) := by
    rw [split_eq [B, R * r] [] C c a (-1) ha hC (Or.inr (by rw [ha]; norm_num))]
    apply List.map_congr_left
    intro cb _
    simp
  have hvs : ∀ cb, cb < C →
      split (⟨[B, R * r, c], takeSlices a.data (B * (R * r)) C c cb⟩ : NDArr α) R (-2)
        = (List.range R).map (fun rb =>
            (⟨[B, r, c], takeSlices (takeSlices a.data (B * (R * r)) C c cb) B R (r * c) rb⟩
              : NDArr α)) := by
    intro cb hcb
    rw [split_eq [B] [c] R r _ (-2) rfl hR (Or.inr (by norm_num))]
    apply List.map_congr_left
    intro rb _
    simp
  have hlayers : (split a C (-1)).map (fun col => split col R (-2))
      = (List.range C).map (fun cb => (List.range R).map (fun rb =>
          (⟨[B, r, c], takeSlices (takeSlices a.data (B * (R * r)) C c cb) B R (r * c) rb⟩
            : NDArr α))) := by
    rw [hcols, List.map_map]
    apply List.map_congr_left
    intro cb hcb
    simp only [Function.comp_apply]
    exact hvs cb (List.mem_range.mp hcb)
  have hstack : reshape_to_stacked_3d C R a = npStackLast (concatAll
      ((List.range C).map (fun cb => (List.range R).map (fun rb =>
        (⟨[B, r, c], takeSlices (takeSlices a.data (B * (R * r)) C c cb) B R (r * c) rb⟩
          : NDArr α))))) := by
    unfold reshape_to_stacked_3d
    rw [hlayers]
  have htile_len : ∀ cb rb, cb < C → rb < R →
      (takeSlices (takeSlices a.data (B * (R * r)) C c cb) B R (r * c) rb).length
        = B * (r * c) := by
    intro cb rb hcb hrb
    have h1 := hcol_len cb hcb
    exact takeSlices_length (takeSlices a.data (B * (R * r)) C c cb) B R (r * c) rb
      (by rw [h1]; ring) hrb
  have hbiglen : (concatAll ((List.range C).map (fun cb => (List.range R).map (fun rb =>
      (⟨[B, r, c], takeSlices (takeSlices a.data (B * (R * r)) C c cb) B R (r * c) rb⟩
        : NDArr α))))).length = C * R :=
    concat_range_map_length C R _
  have hmems : ∀ l ∈ concatAll ((List.range C).map (fun cb => (List.range R).map (fun rb =>
      (⟨[B, r, c], takeSlices (takeSlices a.data (B * (R * r)) C c cb) B R (r * c) rb⟩
        : NDArr α)))), l.shape = [B, r, c] ∧ l.data.length = ([B, r, c] : List Nat).prod := by
    intro l hl
    rw [concatAll_mem] at hl
    obtain ⟨inner, hinner, hlmem⟩ := hl
    simp only [List.mem_map, List.mem_range] at hinner
    obtain ⟨cb, hcb, rfl⟩ := hinner
    simp only [List.mem_map, List.mem_range] at hlmem
    obtain ⟨rb, hrb, rfl⟩ := hlmem
    refine ⟨rfl, ?_⟩
    rw [htile_len cb rb hcb hrb]
    simp
  have hne : concatAll ((List.range C).map (fun cb => (List.range R).map (fun rb =>
      (⟨[B, r, c], takeSlices (takeSlices a.data (B * (R * r)) C c cb) B R (r * c) rb⟩
        : NDArr α)))) ≠ [] := by
    intro h0
    have hl0 := hbiglen
    rw [h0] at hl0
    simp at hl0
    rcases hl0 with h | h
    · omega
    · omega
  rw [hstack]
  constructor
  · have hhead : ((concatAll ((List.range C).map (fun cb => (List.range R).map (fun rb =>
        (⟨[B, r, c], takeSlices (takeSlices a.data (B * (R * r)) C c cb) B R (r * c) rb⟩
          : NDArr α))))).headD default).shape = [B, r, c] := by
      cases hcl : concatAll ((List.range C).map (fun cb => (List.range R).map (fun rb =>
          (⟨[B, r, c], takeSlices (takeSlices a.data (B * (R * r)) C c cb) B R (r * c) rb⟩
            : NDArr α)))) with
      | nil => exact absurd hcl hne
      | cons x xs =>
        have hx := (hmems x (by rw [hcl]; exact List.mem_cons_self x xs)).1
        simp [hx]
    simp only [npStackLast, hhead, hbiglen]
    rfl
  · intro b i j t hb hi hj ht
    have hmod : t % R < R := Nat.mod_lt t hR
    have hdiv : t / R < C := by
      rw [Nat.div_lt_iff_lt_mul hR, Nat.mul_comm C R]
      exact ht
    have hel := npStackLast_el (concatAll ((List.range C).map (fun cb =>
        (List.range R).map (fun rb =>
          (⟨[B, r, c], takeSlices (takeSlices a.data (B * (R * r)) C c cb) B R (r * c) rb⟩
            : NDArr α))))) [B, r, c] t [b, i, j] hne
      (fun l hl => (hmems l hl).1) (fun l hl => (hmems l hl).2)
      (List.Forall₂.cons hb (List.Forall₂.cons hi (List.Forall₂.cons hj List.Forall₂.nil)))
      (by rw [hbiglen, Nat.mul_comm C R]; exact ht)
    have hgd := concat_range_map_getD C R (fun cb rb =>
        (⟨[B, r, c], takeSlices (takeSlices a.data (B * (R * r)) C c cb) B R (r * c) rb⟩
          : NDArr α)) (t / R) (t % R) default hdiv hmod
    have hsp : t / R * R + t % R = t := by
      have h := Nat.div_add_mod t R
      rw [Nat.mul_comm] at h
      omega
    rw [hsp] at hgd
    show (npStackLast _).el ([b, i, j] ++ [t]) = _
    rw [hel, hgd]
    have hpe1 := piece_el [B] [c] R r (takeSlices a.data (B * (R * r)) C c (t / R))
      (t % R) i [b] [j]
      (by rw [hcol_len (t / R) hdiv]; simp; ring)
      (List.Forall₂.cons hb List.Forall₂.nil)
      (List.Forall₂.cons hj List.Forall₂.nil) hi hmod
    simp only [List.cons_append, List.nil_append, List.prod_singleton,
      List.prod_cons, List.prod_nil, Nat.mul_one] at hpe1
    rw [hpe1]
    have hpe2 := piece_el [B, R * r] ([] : List Nat) C c a.data (t / R) j
      [b, t % R * r + i] []
      (by rw [hlen]; simp; ring)
      (List.Forall₂.cons hb
        (List.Forall₂.cons (mul_add_lt (t % R) R i r hmod hi) List.Forall₂.nil))
      List.Forall₂.nil hj hdiv
    simp only [List.cons_append, List.nil_append, List.prod_singleton,
      List.prod_cons, List.prod_nil, Nat.mul_one] at hpe2
    rw [hpe2]
    have haeq : (⟨[B, R * r, C * c], a.data⟩ : NDArr α) = a := by
      rw [← ha]
    rw [haeq]

theorem some_getD {β : Type} (o : Option β) (d : β) (h : o.isSome) : some (o.getD d) = o := by
  cases o with
  | none => simp at h
  | some v => rfl

theorem flatIdx_pair (d1 d2 i j : Nat) : flatIdx [d1, d2] [i, j] = i * d2 + j := by
  simp [flatIdx, flatIdxAux]

/-- C9: on an input set of arrays sharing `R` row-chunks and `C` column-chunks,
the chunk stacker produces for each array exactly `R*C` tiles along the trailing tile
axis, every stacked array has the same tile count and per-tile spatial shape, and the
same column-outer/row-inner tile order is used for every array (2-D coordinate and
gradient arrays as well as the 3-D data array), so tile `t` covers the same spatial
region `rows [(t % R)·r, ...), cols [(t / R)·c, ...)` across all of them. -/
theorem claim_C9 (R C r c B : Nat) (chunks0 chunks1 : List Nat)
    (arrays : List (NDArr OQ)) (d : NDArr OQ)
    (hch0 : chunks0.length = R) (hch1 : chunks1.length = C)
    (hR : 0 < R) (hC : 0 < C) (hr : 0 < r) (hc : 0 < c) (hB : 0 < B)
    (harr : ∀ a ∈ arrays, a.shape = [R * r, C * c] ∧ a.data.length = R * r * (C * c))
    (hd : d.shape = [B, R * r, C * c] ∧ d.data.length = B * (R * r) * (C * c)) :
    (reshape_arrays_in_stacked_chunks arrays chunks0 chunks1).length = arrays.length ∧
    (∀ o ∈ reshape_arrays_in_stacked_chunks arrays chunks0 chunks1,
      o.shape = [r, c, R * C]) ∧
    (∀ k, k < arrays.length → ∀ i j t, i < r → j < c → t < R * C →
      ((reshape_arrays_in_stacked_chunks arrays chunks0 chunks1).getD k default).el [i, j, t]
        = (arrays.getD k default).el [t % R * r + i, t / R * c + j]) ∧
    (reshape_to_stacked_3d C R d).shape = [B, r, c, R * C] ∧
    (∀ b i j t, b < B → i < r → j < c → t < R * C →
      (reshape_to_stacked_3d C R d).el [b, i, j, t]
        = d.el [b, t % R * r + i, t / R * c + j]) := by
  have hrw : reshape_arrays_in_stacked_chunks arrays chunks0 chunks1
      = arrays.map (stackOne R C) := by
    simp [reshape_arrays_in_stacked_chunks, hch0, hch1]
  refine ⟨by rw [hrw]; simp, ?_, ?_, ?_, ?_⟩
  · intro o ho
    rw [hrw] at ho
    simp only [List.mem_map] at ho
    obtain ⟨a, haa, rfl⟩ := ho
    rw [(stackOne_spec R C r c a (harr a haa).1 (harr a haa).2 hR hC hr hc).1,
      Nat.mul_comm C R]
  · intro k hk i j t hi hj ht
    rw [hrw]
    rw [List.getD_eq_getElem (arrays.map (stackOne R C)) default (by simpa using hk)]
    rw [List.getElem_map]
    rw [List.getD_eq_getElem arrays default hk]
    have hmem : arrays[k] ∈ arrays := List.getElem_mem hk
    exact (stackOne_spec R C r c arrays[k] (harr _ hmem).1 (harr _ hmem).2
      hR hC hr hc).2 i j t hi hj ht
  · rw [(stack3d_spec B R C r c d hd.1 hd.2 hB hR hC hr hc).1, Nat.mul_comm C R]
  · exact (stack3d_spec B R C r c d hd.1 hd.2 hB hR hC hr hc).2

/-- Witness for C9 on the concrete 4×4 grid split into 2×2 tiles: one coordinate
array and the single-band data array stack into 4 tiles of shape 2×2, and tile 1 of
the stacked coordinate array holds the coordinate of source row 3, column 0. -/
theorem claim_C9_witness :
    (reshape_arrays_in_stacked_chunks [cSrcX] [2, 2] [2, 2]).length = 1 ∧
    ((reshape_arrays_in_stacked_chunks [cSrcX] [2, 2] [2, 2]).getD 0 default).el [1, 0, 1]
      = cSrcX.el [3, 0] ∧
    (reshape_to_stacked_3d 2 2 cData1).shape = [1, 2, 2, 4] ∧
    (reshape_to_stacked_3d 2 2 cData1).el [0, 1, 0, 1] = cData1.el [0, 3, 0] := by
  have h := claim_C9 2 2 2 2 1 [2, 2] [2, 2] [cSrcX] cData1 rfl rfl
    (by decide) (by decide) (by decide) (by decide) (by decide)
    (by decide) (by decide)
  refine ⟨h.1, ?_, h.2.2.2.1, ?_⟩
  · exact (h.2.2.1 0 (by decide) 1 0 1 (by decide) (by decide) (by decide)).trans (by decide)
  · exact (h.2.2.2.2 0 1 0 1 (by decide) (by decide) (by decide) (by decide)).trans
      (by decide)

/-- C7: split/stack round-trip — stacking an array partitioned into R×C equal chunks
and then un-stacking the tile axis back into the R×C grid reproduces the original
array exactly, element for element (and in shape). -/
theorem claim_C7 (R C r c : Nat) (chunks0 chunks1 : List Nat) (a : NDArr OQ)
    (hch0 : chunks0.length = R) (hch1 : chunks1.length = C)
    (hR : 0 < R) (hC : 0 < C) (hr : 0 < r) (hc : 0 < c)
    (ha : a.shape = [R * r, C * c])
    (hlen : a.data.length = R * r * (C * c)) :
    (unstackTiles R C r c
        ((reshape_arrays_in_stacked_chunks [a] chunks0 chunks1).headD default)).shape
      = a.shape ∧
    ∀ i j, i < R * r → j < C * c →
      (unstackTiles R C r c
          ((reshape_arrays_in_stacked_chunks [a] chunks0 chunks1).headD default)).el [i, j]
        = a.el [i, j] := by
  have hhd : (reshape_arrays_in_stacked_chunks [a] chunks0 chunks1).headD default
      = stackOne R C a := by
    simp [reshape_arrays_in_stacked_chunks, hch0, hch1]
  rw [hhd]
  obtain ⟨hsh, hel⟩ := stackOne_spec R C r c a ha hlen hR hC hr hc
  constructor
  · rw [ha]
    rfl
  · intro i j hi hj
    have hmodr : i % r < r := Nat.mod_lt i hr
    have hmodc : j % c < c := Nat.mod_lt j hc
    have hdivr : i / r < R := by
      rw [Nat.div_lt_iff_lt_mul hr]
      exact hi
    have hdivc : j / c < C := by
      rw [Nat.div_lt_iff_lt_mul hc]
      exact hj
    have htt : j / c * R + i / r < R * C := by
      rw [Nat.mul_comm R C]
      exact mul_add_lt (j / c) C (i / r) R hdivc hdivr
    show (concatAll ((List.range (R * r)).map (fun x => (List.range (C * c)).map (fun y =>
        ((stackOne R C a).el [x % r, y % c, y / c * R + x / r]).getD none))))[flatIdx
          [R * r, C * c] [i, j]]? = a.el [i, j]
    rw [flatIdx_pair]
    rw [concatAll_getElem? (C * c) j hj _ i
      (by intro l hl; simp only [List.mem_map, List.mem_range] at hl
          obtain ⟨x, _, rfl⟩ := hl; simp)]
    rw [List.getElem?_map, List.getElem?_range hi]
    simp only [Option.map_some', Option.some_bind]
    rw [List.getElem?_map, List.getElem?_range hj]
    simp only [Option.map_some']
    rw [hel (i % r) (j % c) (j / c * R + i / r) hmodr hmodc htt]
    have hmodR : (j / c * R + i / r) % R = i / r := by
      rw [Nat.mul_comm (j / c) R, Nat.mul_add_mod]
      exact Nat.mod_eq_of_lt hdivr
    have hdivR : (j / c * R + i / r) / R = j / c := by
      rw [Nat.mul_comm (j / c) R, Nat.mul_add_div hR]
      rw [Nat.div_eq_of_lt hdivr]
      omega
    rw [hmodR, hdivR]
    have hieq : i / r * r + i % r = i := by
      have h := Nat.div_add_mod i r
      rw [Nat.mul_comm] at h
      omega
    have hjeq : j / c * c + j % c = j := by
      have h := Nat.div_add_mod j c
      rw [Nat.mul_comm] at h
      omega
    rw [hieq, hjeq]
    apply some_getD
    show (a.data[flatIdx a.shape [i, j]]?).isSome
    rw [ha, flatIdx_pair]
    rw [List.getElem?_eq_getElem (by
      rw [hlen]
      exact mul_add_lt i (R * r) j (C * c) hi hj)]
    rfl

/-- Witness for C7: the concrete 4×4 coordinate grid stacked into 2×2 tiles and
reconstructed is unchanged at every probed position. -/
theorem claim_C7_witness :
    (unstackTiles 2 2 2 2
        ((reshape_arrays_in_stacked_chunks [cSrcX] [2, 2] [2, 2]).headD default)).shape
      = cSrcX.shape ∧
    (unstackTiles 2 2 2 2
        ((reshape_arrays_in_stacked_chunks [cSrcX] [2, 2] [2, 2]).headD default)).el [3, 2]
      = cSrcX.el [3, 2] := by
  have h := claim_C7 2 2 2 2 [2, 2] [2, 2] cSrcX rfl rfl
    (by decide) (by decide) (by decide) (by decide) (by decide) (by decide)
  exact ⟨h.1, h.2 3 2 (by decide) (by decide)⟩

/-! ## Boolean-mask selection lemmas -/

theorem trueIdxs_cons_true (bs : List Bool) :
    trueIdxs (true :: bs) = 0 :: (trueIdxs bs).map (· + 1) := by
  simp [trueIdxs]

theorem trueIdxs_cons_false (bs : List Bool) :
    trueIdxs (false :: bs) = (trueIdxs bs).map (· + 1) := by
  simp [trueIdxs]

theorem trueIdxs_sorted (mask : List Bool) : List.Sorted (· < ·) (trueIdxs mask) := by
  induction mask with
  | nil => simp [trueIdxs]
  | cons b bs ih =>
    cases b
    · rw [trueIdxs_cons_false]
      exact List.Pairwise.map _ (fun x y h => by omega) ih
    · rw [trueIdxs_cons_true]
      refine List.Pairwise.cons ?_ (List.Pairwise.map _ (fun x y h => by omega) ih)
      intro x hx
      simp only [List.mem_map] at hx
      obtain ⟨y, _, rfl⟩ := hx
      omega

theorem trueIdxs_lt (mask : List Bool) : ∀ t ∈ trueIdxs mask, t < mask.length := by
  induction mask with
  | nil => simp [trueIdxs]
  | cons b bs ih =>
    intro t ht
    cases b
    · rw [trueIdxs_cons_false] at ht
      simp only [List.mem_map] at ht
      obtain ⟨y, hy, rfl⟩ := ht
      have := ih y hy
      simp
      omega
    · rw [trueIdxs_cons_true] at ht
      simp only [List.mem_cons, List.mem_map] at ht
      rcases ht with rfl | ⟨y, hy, rfl⟩
      · simp
      · have := ih y hy
        simp
        omega

theorem trueIdxs_mem (mask : List Bool) :
    ∀ t, t ∈ trueIdxs mask ↔ t < mask.length ∧ mask.getD t false = true := by
  induction mask with
  | nil => simp [trueIdxs]
  | cons b bs ih =>
    intro t
    cases b
    · rw [trueIdxs_cons_false]
      cases t with
      | zero => simp
      | succ t' =>
        simp only [List.mem_map, List.length_cons, List.getD_cons_succ]
        constructor
        · intro h
          obtain ⟨y, hy, hyt⟩ := h
          obtain rfl : y = t' := by omega
          have hh := (ih y).mp hy
          exact ⟨by omega, hh.2⟩
        · intro h
          exact ⟨t', (ih t').mpr ⟨by omega, h.2⟩, rfl⟩
    · rw [trueIdxs_cons_true]
      cases t with
      | zero => simp
      | succ t' =>
        simp only [List.mem_cons, List.mem_map, List.length_cons, List.getD_cons_succ]
        constructor
        · intro h
          rcases h with h | ⟨y, hy, hyt⟩
          · omega
          · obtain rfl : y = t' := by omega
            have hh := (ih y).mp hy
            exact ⟨by omega, hh.2⟩
        · intro h
          exact Or.inr ⟨t', (ih t').mpr ⟨by omega, h.2⟩, rfl⟩

theorem maskBlock_eq_map {β : Type} (d : β) :
    ∀ (mask : List Bool) (block : List β), block.length = mask.length →
      maskBlock block mask = (trueIdxs mask).map (fun i => block.getD i d) := by
  intro mask
  induction mask with
  | nil =>
    intro block h
    cases block with
    | nil => rfl
    | cons x xs => simp at h
  | cons b bs ih =>
    intro block h
    cases block with
    | nil => simp at h
    | cons x xs =>
      have hx : xs.length = bs.length := by simpa using h
      cases b
      · have h1 : maskBlock (x :: xs) (false :: bs) = maskBlock xs bs := by
          simp [maskBlock]
        rw [h1, ih xs hx, trueIdxs_cons_false, List.map_map]
        apply List.map_congr_left
        intro i _
        simp [Function.comp]
      · have h1 : maskBlock (x :: xs) (true :: bs) = x :: maskBlock xs bs := by
          simp [maskBlock]
        rw [h1, ih xs hx, trueIdxs_cons_true, List.map_cons, List.map_map]
        rw [List.getD_cons_zero]
        simp [Function.comp]

theorem takeBoolLast_el {β : Type} [Inhabited β] (a : NDArr β) (pre : List Nat) (T : Nat)
    (mask : List Bool) (ip : List Nat) (t' : Nat)
    (hsh : a.shape = pre ++ [T]) (hlen : a.data.length = a.shape.prod)
    (hm : mask.length = T)
    (hip : List.Forall₂ (· < ·) ip pre) (ht' : t' < (trueIdxs mask).length) :
    (takeBoolLast a mask).el (ip ++ [t'])
      = a.el (ip ++ [(trueIdxs mask).getD t' 0]) := by
  have hiplen : pre.length = ip.length := hip.length_eq.symm
  have hp : flatIdx pre ip < pre.prod := flatIdx_lt hip
  have hi0mem : (trueIdxs mask).getD t' 0 ∈ trueIdxs mask := by
    rw [List.getD_eq_getElem (trueIdxs mask) 0 ht']
    exact List.getElem_mem ht'
  have hi0 : (trueIdxs mask).getD t' 0 < T := by
    have := trueIdxs_lt mask _ hi0mem
    omega
  have hT : 0 < T := by omega
  have hlenT : a.data.length = pre.prod * T := by
    rw [hlen, hsh, List.prod_append]
    simp
  have hdiv : a.data.length / (pre ++ [T]).getLastD 0 = pre.prod := by
    rw [List.getLastD_concat, hlenT]
    exact Nat.mul_div_cancel pre.prod hT
  have hblock_len : ∀ p, p < pre.prod →
      ((a.data.drop (p * (pre ++ [T]).getLastD 0)).take ((pre ++ [T]).getLastD 0)).length
        = T := by
    intro p hpp
    rw [List.getLastD_concat]
    have : p * T + T ≤ pre.prod * T := by
      have := Nat.mul_le_mul_right T (Nat.succ_le_of_lt hpp)
      simpa [Nat.succ_mul] using this
    simp [hlenT]
    omega
  have hseg : ∀ l ∈ (List.range (a.data.length / (pre ++ [T]).getLastD 0)).map
      (fun p => maskBlock ((a.data.drop (p * (pre ++ [T]).getLastD 0)).take
        ((pre ++ [T]).getLastD 0)) mask), l.length = (trueIdxs mask).length := by
    intro l hl
    simp only [List.mem_map, List.mem_range] at hl
    obtain ⟨p, hpp, rfl⟩ := hl
    rw [hdiv] at hpp
    rw [maskBlock_eq_map default mask _ (by rw [hblock_len p hpp, hm])]
    simp
  show (concatAll ((List.range (a.data.length / a.shape.getLastD 0)).map
      (fun p => maskBlock ((a.data.drop (p * a.shape.getLastD 0)).take
        (a.shape.getLastD 0)) mask)))[flatIdx (a.shape.dropLast ++ [(trueIdxs mask).length])
          (ip ++ [t'])]? = _
  rw [hsh, List.dropLast_concat]
  rw [flatIdx_append pre ip [(trueIdxs mask).length] [t'] hiplen rfl]
  have hone : flatIdx [(trueIdxs mask).length] [t'] = t' := by simp [flatIdx, flatIdxAux]
  rw [hone]
  have hprodone : ([(trueIdxs mask).length] : List Nat).prod = (trueIdxs mask).length := by
    simp
  rw [hprodone]
  rw [concatAll_getElem? (trueIdxs mask).length t' ht' _ (flatIdx pre ip) hseg]
  rw [List.getElem?_map, List.getElem?_range (by rw [hdiv]; exact hp)]
  simp only [Option.map_some', Option.some_bind]
  rw [maskBlock_eq_map default mask _ (by rw [hblock_len (flatIdx pre ip) hp, hm])]
  rw [List.getElem?_map]
  rw [List.getElem?_eq_getElem ht']
  simp only [Option.map_some']
  rw [← List.getD_eq_getElem (trueIdxs mask) 0 ht']
  have hbound : flatIdx pre ip * T + T ≤ a.data.length := by
    rw [hlenT]
    have := Nat.mul_le_mul_right T (Nat.succ_le_of_lt hp)
    simpa [Nat.succ_mul] using this
  have hfin : flatIdx pre ip * T + (trueIdxs mask).getD t' 0 < a.data.length := by
    rw [hlenT]
    exact mul_add_lt (flatIdx pre ip) pre.prod ((trueIdxs mask).getD t' 0) T hp hi0
  rw [List.getLastD_concat]
  rw [block_as_map a.data (flatIdx pre ip * T) T default hbound]
  rw [getD_range_map _ T ((trueIdxs mask).getD t' 0) default hi0]
  show _ = a.data[flatIdx a.shape (ip ++ [(trueIdxs mask).getD t' 0])]?
  rw [hsh, flatIdx_append pre ip [T] [(trueIdxs mask).getD t' 0] hiplen rfl]
  have hone2 : flatIdx [T] [(trueIdxs mask).getD t' 0] = (trueIdxs mask).getD t' 0 := by
    simp [flatIdx, flatIdxAux]
  have hprodT : ([T] : List Nat).prod = T := by simp
  rw [hone2, hprodT]
  rw [List.getElem?_eq_getElem hfin]
  rw [List.getD_eq_getElem a.data default hfin]

/-! ## Culling lemmas and claims -/

theorem srcPolysOf_length (sx sy : NDArr OQ) (T : Nat) : (srcPolysOf sx sy T).length = T := by
  simp [srcPolysOf, split]

theorem coversOf_length (orc : Polygon → Polygon → Option Bool) (dstP : Polygon)
    (polys : List Polygon) : (coversOf orc dstP polys).length = polys.length := by
  simp [coversOf]

theorem remove_extra_chunks_eq (orc : Polygon → Polygon → Option Bool)
    (arrays : List (NDArr OQ)) (dx dy : NDArr OQ) :
    remove_extra_chunks orc arrays dx dy = arrays.map (fun arr => takeBoolLast arr
      (coversOf orc (get_polygon dx dy)
        (srcPolysOf (arrays.getD 1 default) (arrays.getD 2 default)
          ((arrays.headD default).shape.getLastD 0)))) := rfl

theorem trueIdxs_alltrue :
    ∀ (mask : List Bool), (∀ b ∈ mask, b = true) →
      trueIdxs mask = List.range mask.length := by
  intro mask
  induction mask with
  | nil => intro _; rfl
  | cons b bs ih =>
    intro h
    have hb : b = true := h b (List.mem_cons_self b bs)
    subst hb
    rw [trueIdxs_cons_true, ih (fun x hx => h x (List.mem_cons_of_mem true hx))]
    rw [List.length_cons, List.range_succ_eq_map]

theorem maskBlock_alltrue {β : Type} :
    ∀ (mask : List Bool) (block : List β), (∀ b ∈ mask, b = true) →
      block.length = mask.length → maskBlock block mask = block := by
  intro mask
  induction mask with
  | nil =>
    intro block _ h
    cases block with
    | nil => rfl
    | cons x xs => simp at h
  | cons b bs ih =>
    intro block h hl
    cases block with
    | nil => simp at hl
    | cons x xs =>
      have hb : b = true := h b (List.mem_cons_self b bs)
      subst hb
      have h1 : maskBlock (x :: xs) (true :: bs) = x :: maskBlock xs bs := by
        simp [maskBlock]
      rw [h1, ih xs (fun y hy => h y (List.mem_cons_of_mem true hy)) (by simpa using hl)]

theorem takeBoolLast_alltrue {β : Type} [Inhabited β] (a : NDArr β) (mask : List Bool)
    (pre : List Nat) (T : Nat)
    (hmask : ∀ b ∈ mask, b = true)
    (hm : mask.length = T) (hT : 0 < T)
    (hsh : a.shape = pre ++ [T])
    (hlen : a.data.length = a.shape.prod) :
    takeBoolLast a mask = a := by
  have hlenT : a.data.length = pre.prod * T := by
    rw [hlen, hsh, List.prod_append]
    simp
  have htru : trueIdxs mask = List.range T := by
    rw [trueIdxs_alltrue mask hmask, hm]
  have hcnt : (trueIdxs mask).length = T := by rw [htru]; simp
  have hshape : (takeBoolLast a mask).shape = a.shape := by
    show a.shape.dropLast ++ [(trueIdxs mask).length] = a.shape
    rw [hsh, List.dropLast_concat, hcnt]
  have hdata : (takeBoolLast a mask).data = a.data := by
    show concatAll ((List.range (a.data.length / a.shape.getLastD 0)).map
        (fun p => maskBlock ((a.data.drop (p * a.shape.getLastD 0)).take
          (a.shape.getLastD 0)) mask)) = a.data
    rw [hsh, List.getLastD_concat]
    have hdiv : a.data.length / T = pre.prod := by
      rw [hlenT]
      exact Nat.mul_div_cancel pre.prod hT
    rw [hdiv]
    have hblocks : (List.range pre.prod).map
        (fun p => maskBlock ((a.data.drop (p * T)).take T) mask)
        = (List.range pre.prod).map (fun p => (a.data.drop (p * T)).take T) := by
      apply List.map_congr_left
      intro p hp
      simp only [List.mem_range] at hp
      apply maskBlock_alltrue mask _ hmask
      have : p * T + T ≤ pre.prod * T := by
        have := Nat.mul_le_mul_right T (Nat.succ_le_of_lt hp)
        simpa [Nat.succ_mul] using this
      rw [hm]
      simp [hlenT]
      omega
    rw [hblocks]
    exact concat_chunks T pre.prod a.data (by rw [hlenT])
  have heta : takeBoolLast a mask
      = ⟨(takeBoolLast a mask).shape, (takeBoolLast a mask).data⟩ := rfl
  rw [heta, hshape, hdata]

theorem polyArea_short (p : Polygon) (h : p.length < 3) : polyArea p = 0 := by
  unfold polyArea
  match p, h with
  | [], _ => simp
  | [p1], _ =>
    rw [List.rotate_singleton]
    simp
  | [p1, p2], _ =>
    have hrot : ([p1, p2] : Polygon).rotate 1 = [p2, p1] := by
      rw [List.rotate_cons_succ, List.rotate_zero]
      rfl
    rw [hrot]
    simp only [List.zip_cons_cons, List.zip_nil_right, List.map_cons, List.map_nil,
      List.sum_cons, List.sum_nil]
    have hz : p1.1 * p2.2 - p2.1 * p1.2 + (p2.1 * p1.2 - p1.1 * p2.2 + 0) = 0 := by
      ring
    rw [hz]
    simp

/-- C3: the tile culler is fail-open.  The culler always reduces to boolean-mask
selection with the `coversOf` verdicts; if the destination footprint has area exactly
zero every tile is kept (the arrays are returned unchanged); and any tile on which
the external intersection predicate fails with a TopologicalError (modelled by
`none`) is kept.  The model is total, so no error propagates to the caller. -/
theorem claim_C3 (orc : Polygon → Polygon → Option Bool) (arrays : List (NDArr OQ))
    (dx dy : NDArr OQ) (T : Nat)
    (hT : (arrays.headD default).shape.getLastD 0 = T) :
    (remove_extra_chunks orc arrays dx dy = arrays.map (fun arr => takeBoolLast arr
      (coversOf orc (get_polygon dx dy)
        (srcPolysOf (arrays.getD 1 default) (arrays.getD 2 default) T)))) ∧
    (polyArea (get_polygon dx dy) = 0 → 0 < T →
      (∀ a ∈ arrays, (∃ pre, a.shape = pre ++ [T]) ∧ a.data.length = a.shape.prod) →
      remove_extra_chunks orc arrays dx dy = arrays) ∧
    (∀ t, t < T →
      orc (get_polygon dx dy)
          ((srcPolysOf (arrays.getD 1 default) (arrays.getD 2 default) T).getD t [])
        = none →
      (coversOf orc (get_polygon dx dy)
          (srcPolysOf (arrays.getD 1 default) (arrays.getD 2 default) T)).getD t false
        = true ∧
      t ∈ trueIdxs (coversOf orc (get_polygon dx dy)
          (srcPolysOf (arrays.getD 1 default) (arrays.getD 2 default) T))) := by
  subst hT
  refine ⟨rfl, ?_, ?_⟩
  · intro harea hT hall
    rw [remove_extra_chunks_eq]
    conv_rhs => rw [← List.map_id arrays]
    apply List.map_congr_left
    intro arr harr
    obtain ⟨⟨pre, hsh⟩, hlen⟩ := hall arr harr
    show takeBoolLast arr _ = arr
    apply takeBoolLast_alltrue arr _ pre _ _ _ hT hsh hlen
    · intro b hb
      simp only [coversOf, List.mem_map] at hb
      obtain ⟨poly, _, rfl⟩ := hb
      rw [if_pos harea]
    · rw [coversOf_length, srcPolysOf_length]
  · intro t ht hnone
    have hlt : t < (coversOf orc (get_polygon dx dy)
        (srcPolysOf (arrays.getD 1 default) (arrays.getD 2 default)
          ((arrays.headD default).shape.getLastD 0))).length := by
      rw [coversOf_length, srcPolysOf_length]
      exact ht
    have hget : (coversOf orc (get_polygon dx dy)
        (srcPolysOf (arrays.getD 1 default) (arrays.getD 2 default)
          ((arrays.headD default).shape.getLastD 0))).getD t false = true := by
      unfold coversOf
      rw [List.getD_eq_getElem _ false (by rw [List.length_map, srcPolysOf_length]; exact ht)]
      rw [List.getElem_map]
      rw [← List.getD_eq_getElem _ ([] : Polygon) (by rw [srcPolysOf_length]; exact ht)]
      rw [hnone]
      by_cases harea : polyArea (get_polygon dx dy) = 0
      · rw [if_pos harea]
      · rw [if_neg harea]
        rfl
    refine ⟨hget, ?_⟩
    rw [trueIdxs_mem]
    exact ⟨hlt, hget⟩

theorem cPtArea : polyArea (get_polygon cPt cPt) = 0 := by
  have hpoly : get_polygon cPt cPt = [(0, 0), (0, 0), (0, 0), (0, 0)] := rfl
  rw [hpoly]
  norm_num [polyArea, List.rotate]

/-- Witness for C3 at a concrete input: a zero-area (single-point) destination
footprint keeps all tiles of three 2-tile stacked arrays unchanged, under an oracle
that always fails; and tile 0, on which the oracle fails, is kept. -/
theorem claim_C3_witness :
    remove_extra_chunks cOrcNone [cA, cA, cA] cPt cPt = [cA, cA, cA] ∧
    0 ∈ trueIdxs (coversOf cOrcNone (get_polygon cPt cPt)
      (srcPolysOf ([cA, cA, cA].getD 1 default) ([cA, cA, cA].getD 2 default) 2)) := by
  have h := claim_C3 cOrcNone [cA, cA, cA] cPt cPt 2 (by decide)
  constructor
  · apply h.2.1 cPtArea (by decide)
    intro a ha
    have haeq : a = cA := by
      simp only [List.mem_cons, List.not_mem_nil, or_false] at ha
      rcases ha with rfl | rfl | rfl <;> rfl
    subst haeq
    exact ⟨⟨[2], by decide⟩, by decide⟩
  · exact (h.2.2 0 (by decide) (by decide)).2

/-- C4: a footprint polygon built from a coordinate grid with fewer than three finite
corner points is degenerate but still usable: its area is exactly 0, and the
intersection test on it is total (no unhandled error), in both argument orders. -/
theorem claim_C4 (x y : NDArr OQ) (hdeg : (get_boundary x y).length < 3) :
    polyArea (get_polygon x y) = 0 ∧
    ∀ q : Polygon, (shapelyIntersects (get_polygon x y) q).isSome ∧
      (shapelyIntersects q (get_polygon x y)).isSome := by
  refine ⟨?_, fun q => ⟨rfl, rfl⟩⟩
  exact polyArea_short (get_boundary x y) hdeg

/-- Witness for C4: an all-non-finite 2×2 coordinate grid yields an empty boundary,
whose polygon has area 0 and a total intersection test. -/
theorem claim_C4_witness :
    polyArea (get_polygon cNaN cNaN) = 0 ∧
    (shapelyIntersects (get_polygon cNaN cNaN) [(0, 0), (1, 0), (0, 1)]).isSome := by
  have h := claim_C4 cNaN cNaN (by decide)
  exact ⟨h.1, (h.2 [(0, 0), (1, 0), (0, 1)]).1⟩

/-! ## The concrete 4×4 culling scenario -/

theorem cT4 : (cStacked.headD default).shape.getLastD 0 = 4 := rfl

theorem cDstPolyEq : get_polygon cDstX cDstY = [(0, 0), (1, 0), (1, 1), (0, 1)] := rfl

theorem cDstArea : polyArea (get_polygon cDstX cDstY) ≠ 0 := by
  rw [cDstPolyEq]
  norm_num [polyArea, List.rotate]

theorem cPolysEq : srcPolysOf (cStacked.getD 1 default) (cStacked.getD 2 default) 4
    = [[(0, 0), (1, 0), (1, 1), (0, 1)], [(0, 2), (1, 2), (1, 3), (0, 3)],
       [(2, 0), (3, 0), (3, 1), (2, 1)], [(2, 2), (3, 2), (3, 3), (2, 3)]] := rfl

theorem cCoversEq : coversOf shapelyIntersects (get_polygon cDstX cDstY)
    (srcPolysOf (cStacked.getD 1 default) (cStacked.getD 2 default) 4)
    = [true, false, false, false] := by
  rw [cPolysEq]
  unfold coversOf shapelyIntersects
  simp only [List.map_cons, List.map_nil, if_neg cDstArea, Option.getD_some]
  rw [cDstPolyEq]
  norm_num [polyIntersects, polyEdges, edgeSeparates, cross, List.rotate, List.all,
    List.any]

/-- C1: with a destination footprint of non-zero area, the culler keeps exactly the
tiles whose source footprint intersects the destination footprint: the output is the
boolean-mask selection by the intersection verdicts in every stacked array; the
surviving tile indices are strictly increasing (original relative order) and are
exactly the intersecting ones; the selection maps surviving position `t'` to the
`t'`-th intersecting tile; and on the concrete 4×4 grid split into 2×2 tiles with a
destination footprint covering exactly the top-left quadrant only the top-left tile
(tile 0) survives in every stacked array. -/
theorem claim_C1 (arrays : List (NDArr OQ)) (dx dy : NDArr OQ) (T : Nat)
    (hT : (arrays.headD default).shape.getLastD 0 = T)
    (harea : polyArea (get_polygon dx dy) ≠ 0) :
    (remove_extra_chunks shapelyIntersects arrays dx dy
      = arrays.map (fun arr => takeBoolLast arr
          (intersectMask dx dy (arrays.getD 1 default) (arrays.getD 2 default) T))) ∧
    List.Sorted (· < ·)
      (trueIdxs (intersectMask dx dy (arrays.getD 1 default) (arrays.getD 2 default) T)) ∧
    (∀ t, t ∈ trueIdxs
        (intersectMask dx dy (arrays.getD 1 default) (arrays.getD 2 default) T)
      ↔ t < T ∧ polyIntersects (get_polygon dx dy)
          ((srcPolysOf (arrays.getD 1 default) (arrays.getD 2 default) T).getD t [])
            = true) ∧
    (∀ a ∈ arrays, ∀ pre, a.shape = pre ++ [T] → a.data.length = a.shape.prod →
      ∀ ip t', List.Forall₂ (· < ·) ip pre →
        t' < (trueIdxs (intersectMask dx dy (arrays.getD 1 default)
          (arrays.getD 2 default) T)).length →
        (takeBoolLast a (intersectMask dx dy (arrays.getD 1 default)
            (arrays.getD 2 default) T)).el (ip ++ [t'])
          = a.el (ip ++ [(trueIdxs (intersectMask dx dy (arrays.getD 1 default)
              (arrays.getD 2 default) T)).getD t' 0])) ∧
    (remove_extra_chunks shapelyIntersects cStacked cDstX cDstY
      = cStacked.map (fun arr => takeBoolLast arr [true, false, false, false])) := by
  have hmask : coversOf shapelyIntersects (get_polygon dx dy)
      (srcPolysOf (arrays.getD 1 default) (arrays.getD 2 default) T)
      = intersectMask dx dy (arrays.getD 1 default) (arrays.getD 2 default) T := by
    unfold coversOf intersectMask shapelyIntersects
    apply List.map_congr_left
    intro poly _
    rw [if_neg harea]
    rfl
  have hmlen : (intersectMask dx dy (arrays.getD 1 default)
      (arrays.getD 2 default) T).length = T := by
    unfold intersectMask
    rw [List.length_map, srcPolysOf_length]
  have hgd : ∀ t, t < T →
      (intersectMask dx dy (arrays.getD 1 default) (arrays.getD 2 default) T).getD t false
        = polyIntersects (get_polygon dx dy)
          ((srcPolysOf (arrays.getD 1 default) (arrays.getD 2 default) T).getD t []) := by
    intro t ht1
    unfold intersectMask
    rw [List.getD_eq_getElem _ false
      (by rw [List.length_map, srcPolysOf_length]; exact ht1)]
    rw [List.getElem_map]
    rw [← List.getD_eq_getElem _ ([] : Polygon) (by rw [srcPolysOf_length]; exact ht1)]
  refine ⟨?_, trueIdxs_sorted _, ?_, ?_, ?_⟩
  · rw [remove_extra_chunks_eq, hT, hmask]
  · intro t
    rw [trueIdxs_mem, hmlen]
    constructor
    · intro h
      exact ⟨h.1, (hgd t h.1) ▸ h.2⟩
    · intro h
      exact ⟨h.1, (hgd t h.1).symm ▸ h.2⟩
  · intro a ha pre hsh hlen ip t' hip ht'
    exact takeBoolLast_el a pre T _ ip t' hsh hlen hmlen hip ht'
  · rw [remove_extra_chunks_eq, cT4, cCoversEq]

/-- Witness for C1: on the concrete 4×4 scenario the culler output is exactly the
boolean-mask selection keeping only tile 0 in every stacked array, and tile 0 is a
surviving tile index. -/
theorem claim_C1_witness :
    (remove_extra_chunks shapelyIntersects cStacked cDstX cDstY
      = cStacked.map (fun arr => takeBoolLast arr [true, false, false, false])) ∧
    0 ∈ trueIdxs (intersectMask cDstX cDstY (cStacked.getD 1 default)
      (cStacked.getD 2 default) 4) := by
  have h := claim_C1 cStacked cDstX cDstY 4 cT4 cDstArea
  refine ⟨h.2.2.2.2, ?_⟩
  rw [trueIdxs_mem]
  refine ⟨?_, ?_⟩
  · have := h.2.2.1  -- membership characterisation, not needed for the bound
    rw [show (intersectMask cDstX cDstY (cStacked.getD 1 default)
      (cStacked.getD 2 default) 4).length = 4 from by
        rw [intersectMask, List.length_map, srcPolysOf_length]]
    omega
  · rw [show intersectMask cDstX cDstY (cStacked.getD 1 default)
        (cStacked.getD 2 default) 4 = [true, false, false, false] from ?_]
    · rfl
    · rw [intersectMask, cPolysEq, cDstPolyEq]
      norm_num [polyIntersects, polyEdges, edgeSeparates, cross, List.rotate,
        List.all, List.any]

/-! ## Reduction lemmas and claims -/

theorem nanmax2_rightcomm (a x y : OQ) :
    nanmax2 (nanmax2 a x) y = nanmax2 (nanmax2 a y) x := by
  cases a <;> cases x <;> cases y <;>
    simp [nanmax2, sup_comm, sup_assoc, sup_left_comm]

theorem nanmaxFold_some (l : List OQ) :
    ∀ acc : ℚ, l.foldl nanmax2 (some acc) = some ((l.filterMap id).foldl max acc) := by
  induction l with
  | nil => intro acc; rfl
  | cons x xs ih =>
    intro acc
    cases x with
    | none => simpa using ih acc
    | some b => simpa using ih (max acc b)

theorem nanmaxFold_eq (l : List OQ) :
    nanmaxFold l = match l.filterMap id with
      | [] => none
      | x :: xs => some (xs.foldl max x) := by
  induction l with
  | nil => rfl
  | cons v vs ih =>
    cases v with
    | none =>
      show vs.foldl nanmax2 (nanmax2 none none) = _
      simpa [nanmax2] using ih
    | some x =>
      show vs.foldl nanmax2 (nanmax2 none (some x)) = _
      have h1 : nanmax2 none (some x) = some x := rfl
      rw [h1, nanmaxFold_some vs x]
      simp

theorem nanmaxFold_perm (l₁ l₂ : List OQ) (h : l₁.Perm l₂) :
    nanmaxFold l₁ = nanmaxFold l₂ := by
  unfold nanmaxFold
  exact h.foldl_eq' (fun x _ y _ z => nanmax2_rightcomm z x y) none

theorem nanmaxLast_el (a : NDArr OQ) (pre : List Nat) (T : Nat) (ip : List Nat)
    (hsh : a.shape = pre ++ [T]) (hlen : a.data.length = a.shape.prod) (hT : 0 < T)
    (hip : List.Forall₂ (· < ·) ip pre) :
    (nanmaxLast a).el ip
      = some (nanmaxFold ((List.range T).map (fun t => (a.el (ip ++ [t])).getD none))) := by
  have hiplen : pre.length = ip.length := hip.length_eq.symm
  have hp : flatIdx pre ip < pre.prod := flatIdx_lt hip
  have hlenT : a.data.length = pre.prod * T := by
    rw [hlen, hsh, List.prod_append]
    simp
  have hdiv : a.data.length / T = pre.prod := by
    rw [hlenT]
    exact Nat.mul_div_cancel pre.prod hT
  have hbound : flatIdx pre ip * T + T ≤ a.data.length := by
    rw [hlenT]
    have := Nat.mul_le_mul_right T (Nat.succ_le_of_lt hp)
    simpa [Nat.succ_mul] using this
  show ((List.range (a.data.length / a.shape.getLastD 0)).map
      (fun q => nanmaxFold ((a.data.drop (q * a.shape.getLastD 0)).take
        (a.shape.getLastD 0))))[flatIdx a.shape.dropLast ip]? = _
  rw [hsh, List.getLastD_concat, List.dropLast_concat, hdiv]
  rw [List.getElem?_map, List.getElem?_range hp]
  simp only [Option.map_some']
  congr 1
  rw [block_as_map a.data (flatIdx pre ip * T) T none hbound]
  apply congrArg
  apply List.map_congr_left
  intro t ht
  simp only [List.mem_range] at ht
  have hfi : flatIdx a.shape (ip ++ [t]) = flatIdx pre ip * T + t := by
    rw [hsh, flatIdx_append pre ip [T] [t] hiplen rfl]
    have h1 : flatIdx [T] [t] = t := by simp [flatIdx, flatIdxAux]
    have h2 : ([T] : List Nat).prod = T := by simp
    rw [h1, h2]
  show a.data.getD (flatIdx pre ip * T + t) none = (a.el (ip ++ [t])).getD none
  unfold NDArr.el
  rw [hfi, List.getD_eq_getElem?_getD]

/-- C5: the overlap reducer computes, at every destination pixel, the NaN-ignoring
maximum over the tile axis: a single finite contribution is returned unchanged;
two finite contributions reduce to their maximum; no finite contribution yields NaN;
over a single tile a finite value is returned unchanged; and concretely the stack of
the two finite values 3 and 7 at one pixel reduces to 7. -/
theorem claim_C5 (a : NDArr OQ) (pre : List Nat) (T : Nat) (ip : List Nat)
    (hsh : a.shape = pre ++ [T]) (hlen : a.data.length = a.shape.prod) (hT : 0 < T)
    (hip : List.Forall₂ (· < ·) ip pre) :
    (∀ v : ℚ,
      ((List.range T).map (fun t => (a.el (ip ++ [t])).getD none)).filterMap id = [v] →
      (nanmaxLast a).el ip = some (some v)) ∧
    (∀ x y : ℚ,
      ((List.range T).map (fun t => (a.el (ip ++ [t])).getD none)).filterMap id = [x, y] →
      (nanmaxLast a).el ip = some (some (max x y))) ∧
    (((List.range T).map (fun t => (a.el (ip ++ [t])).getD none)).filterMap id = [] →
      (nanmaxLast a).el ip = some none) ∧
    (T = 1 → ∀ v : ℚ, a.el (ip ++ [0]) = some (some v) →
      (nanmaxLast a).el ip = some (some v)) ∧
    (nanmaxLast ⟨[1, 2], [some 3, some 7]⟩).el [0] = some (some 7) := by
  have hmaster := nanmaxLast_el a pre T ip hsh hlen hT hip
  refine ⟨?_, ?_, ?_, ?_, ?_⟩
  · intro v hv
    rw [hmaster, nanmaxFold_eq, hv]
    rfl
  · intro x y hv
    rw [hmaster, nanmaxFold_eq, hv]
    simp
  · intro hv
    rw [hmaster, nanmaxFold_eq, hv]
  · intro hT1 v hv
    subst hT1
    rw [hmaster]
    have h0 : (List.range 1).map (fun t => (a.el (ip ++ [t])).getD none)
        = [(a.el (ip ++ [0])).getD none] := rfl
    rw [h0, hv]
    rfl
  · have hmax : max (3 : ℚ) 7 = 7 := max_eq_right (by norm_num)
    calc (nanmaxLast (⟨[1, 2], [some 3, some 7]⟩ : NDArr OQ)).el [0]
        = some (some (max (3 : ℚ) 7)) := rfl
      _ = some (some 7) := by rw [hmax]

/-- Witness for C5: a 2×2 stack whose pixel 0 has exactly one finite contribution 1
reduces to 1 at that pixel. -/
theorem claim_C5_witness :
    (nanmaxLast (⟨[2, 2], [some 1, none, none, none]⟩ : NDArr OQ)).el [0]
      = some (some 1) := by
  have h := claim_C5 (⟨[2, 2], [some 1, none, none, none]⟩ : NDArr OQ) [2] 2 [0]
    (by decide) (by decide) (by decide)
    (List.Forall₂.cons (by decide) List.Forall₂.nil)
  exact h.1 1 (by decide)

/-- C10: the final reduction is invariant under permutation of the tile slices:
reordering the slices along the trailing tile axis with any permutation of the tile
indices leaves the NaN-ignoring maximum reduction unchanged. -/
theorem claim_C10 (a : NDArr OQ) (p : List Nat) (pre : List Nat) (T : Nat)
    (hsh : a.shape = pre ++ [T]) (hlen : a.data.length = a.shape.prod)
    (hp : p.Perm (List.range T)) (hT : 0 < T) :
    nanmaxLast (permuteLast a p) = nanmaxLast a := by
  have hplen : p.length = T := by rw [hp.length_eq, List.length_range]
  have hlenT : a.data.length = pre.prod * T := by
    rw [hlen, hsh, List.prod_append]
    simp
  have hdiv : a.data.length / T = pre.prod := by
    rw [hlenT]
    exact Nat.mul_div_cancel pre.prod hT
  have hperm_eq : permuteLast a p = ⟨pre ++ [T],
      concatAll ((List.range pre.prod).map
        (fun b => p.map (fun t => a.data.getD (b * T + t) none)))⟩ := by
    show (⟨a.shape.dropLast ++ [p.length],
      concatAll ((List.range (a.data.length / a.shape.getLastD 0)).map
        (fun b => p.map (fun t => a.data.getD (b * a.shape.getLastD 0 + t) none)))⟩
        : NDArr OQ) = _
    rw [hsh, List.dropLast_concat, List.getLastD_concat, hplen, hdiv]
  rw [hperm_eq]
  have hseg : ∀ l ∈ (List.range pre.prod).map
      (fun b => p.map (fun t => a.data.getD (b * T + t) none)), l.length = T := by
    intro l hl
    simp only [List.mem_map, List.mem_range] at hl
    obtain ⟨b, _, rfl⟩ := hl
    rw [List.length_map, hplen]
  have hD'len : (concatAll ((List.range pre.prod).map
      (fun b => p.map (fun t => a.data.getD (b * T + t) none)))).length = pre.prod * T := by
    rw [concatAll_length_uniform _ T hseg]
    simp
  have hL : nanmaxLast ⟨pre ++ [T],
      concatAll ((List.range pre.prod).map
        (fun b => p.map (fun t => a.data.getD (b * T + t) none)))⟩
      = ⟨pre, (List.range pre.prod).map (fun q => nanmaxFold
          (((concatAll ((List.range pre.prod).map
            (fun b => p.map (fun t => a.data.getD (b * T + t) none)))).drop (q * T)).take
              T))⟩ := by
    show (⟨(pre ++ [T]).dropLast, _⟩ : NDArr OQ) = _
    rw [List.dropLast_concat]
    have hgl : (pre ++ [T]).getLastD 0 = T := List.getLastD_concat 0 T pre
    rw [hgl, hD'len, Nat.mul_div_cancel pre.prod hT]
  have hR : nanmaxLast a = ⟨pre, (List.range pre.prod).map
      (fun q => nanmaxFold ((a.data.drop (q * T)).take T))⟩ := by
    show (⟨a.shape.dropLast, (List.range (a.data.length / a.shape.getLastD 0)).map
      (fun q => nanmaxFold ((a.data.drop (q * a.shape.getLastD 0)).take
        (a.shape.getLastD 0)))⟩ : NDArr OQ) = _
    rw [hsh, List.dropLast_concat, List.getLastD_concat, hdiv]
  rw [hL, hR]
  have hdata : (List.range pre.prod).map (fun q => nanmaxFold
      (((concatAll ((List.range pre.prod).map
        (fun b => p.map (fun t => a.data.getD (b * T + t) none)))).drop (q * T)).take T))
      = (List.range pre.prod).map
        (fun q => nanmaxFold ((a.data.drop (q * T)).take T)) := by
    apply List.map_congr_left
    intro q hq
    simp only [List.mem_range] at hq
    have hext := concat_extract T _ hseg q (by simpa using hq)
    rw [hext]
    rw [getD_range_map (fun b => p.map (fun t => a.data.getD (b * T + t) none))
      pre.prod q ([] : List OQ) hq]
    have hbound : q * T + T ≤ a.data.length := by
      rw [hlenT]
      have := Nat.mul_le_mul_right T (Nat.succ_le_of_lt hq)
      simpa [Nat.succ_mul] using this
    rw [block_as_map a.data (q * T) T none hbound]
    exact nanmaxFold_perm _ _ (hp.map (fun t => a.data.getD (q * T + t) none))
  rw [hdata]

/-- Witness for C10: swapping the two tile slices of a concrete 1×2 stack does not
change the reduced output. -/
theorem claim_C10_witness :
    nanmaxLast (permuteLast (⟨[1, 2], [some 3, none]⟩ : NDArr OQ) [1, 0])
      = nanmaxLast (⟨[1, 2], [some 3, none]⟩ : NDArr OQ) := by
  exact claim_C10 (⟨[1, 2], [some 3, none]⟩ : NDArr OQ) [1, 0] [1] 2
    (by decide) (by decide) (by decide) (by decide)

/-! ## Pipeline claims -/

theorem pgs_shape (kernel : Nat → Nat → Nat → Nat → OQ)
    (dat sx sy dx dy : NDArr OQ) (chunks0 chunks1 : List Nat)
    (B R C r c M N : Nat)
    (hsh : dat.shape = [B, R * r, C * c])
    (hlen : dat.data.length = B * (R * r) * (C * c))
    (hc0 : chunks0.length = R) (hc1 : chunks1.length = C)
    (hB : 0 < B) (hR : 0 < R) (hC : 0 < C) (hr : 0 < r) (hc : 0 < c)
    (hdx : dx.shape = [M, N]) :
    ∃ out, parallel_gradient_search kernel dat sx sy dx dy chunks0 chunks1
        = Except.ok out
      ∧ out.shape = ([B, M, N] : List Nat).filter (fun d => d != 1) := by
  have hcond : dat.shape.length = 2 ∨ dat.shape.length = 3 := Or.inr (by rw [hsh]; rfl)
  have h32 : ¬ dat.shape.length = 2 := by rw [hsh]; simp
  have hstacksh : (reshape_to_stacked_3d chunks1.length chunks0.length dat).shape
      = [B, r, c, C * R] := by
    rw [hc0, hc1]
    exact (stack3d_spec B R C r c dat hsh hlen hB hR hC hr hc).1
  have hcsh : ∀ mask : List Bool,
      (takeBoolLast (reshape_to_stacked_3d chunks1.length chunks0.length dat) mask).shape
        = [B, r, c, (trueIdxs mask).length] := by
    intro mask
    show (reshape_to_stacked_3d chunks1.length chunks0.length dat).shape.dropLast
        ++ [(trueIdxs mask).length] = _
    rw [hstacksh]
    rfl
  simp only [parallel_gradient_search]
  rw [if_pos hcond, if_neg h32]
  rw [remove_extra_chunks_eq]
  simp only [List.map_cons, List.headD_cons]
  rw [hcsh]
  refine ⟨_, rfl, ?_⟩
  show (([(([B, r, c, _] : List Nat).getD 0 0), dx.shape.getD 0 0, dx.shape.getD 1 0,
      ([B, r, c, _] : List Nat).getLastD 0] : List Nat).dropLast).filter (fun d => d != 1)
    = ([B, M, N] : List Nat).filter (fun d => d != 1)
  rw [hdx]
  rfl

/-- C2 (amended): for a 3-D input with `B ≥ 2` bands, uniformly chunked, and a
destination grid with at least two rows and two columns, the resampling result has
shape `(B, dst_rows, dst_cols)`: the band axis is preserved and the spatial shape is
the destination's.  (The unamended claim fails for `B = 1`: the final squeeze drops
every axis of extent 1.) -/
theorem claim_C2 (kernel : Nat → Nat → Nat → Nat → OQ)
    (dat sx sy dx dy : NDArr OQ) (chunks0 chunks1 : List Nat)
    (B R C r c M N : Nat)
    (hsh : dat.shape = [B, R * r, C * c])
    (hlen : dat.data.length = B * (R * r) * (C * c))
    (hc0 : chunks0.length = R) (hc1 : chunks1.length = C)
    (hR : 0 < R) (hC : 0 < C) (hr : 0 < r) (hc : 0 < c)
    (hB : 2 ≤ B) (hdx : dx.shape = [M, N]) (hM : 2 ≤ M) (hN : 2 ≤ N) :
    ∃ out, parallel_gradient_search kernel dat sx sy dx dy chunks0 chunks1
        = Except.ok out
      ∧ out.shape = [B, M, N] := by
  obtain ⟨out, ho, hshape⟩ := pgs_shape kernel dat sx sy dx dy chunks0 chunks1
    B R C r c M N hsh hlen hc0 hc1 (by omega) hR hC hr hc hdx
  refine ⟨out, ho, ?_⟩
  rw [hshape]
  have h1 : (B != 1) = true := by simp; omega
  have h2 : (M != 1) = true := by simp; omega
  have h3 : (N != 1) = true := by simp; omega
  simp only [List.filter, h1, h2, h3]

/-- Witness for C2 (amended): the concrete two-band 2×4×4 input resampled to the
2×2 destination yields shape (2, 2, 2). -/
theorem claim_C2_witness :
    ∃ out, parallel_gradient_search cKernel cData2 cSrcX cSrcY cDstX cDstY [2, 2] [2, 2]
        = Except.ok out
      ∧ out.shape = [2, 2, 2] :=
  claim_C2 cKernel cData2 cSrcX cSrcY cDstX cDstY [2, 2] [2, 2] 2 2 2 2 2 2 2
    (by decide) (by decide) rfl rfl (by decide) (by decide) (by decide) (by decide)
    (by decide) (by decide) (by decide) (by decide)

/-- Counterexample for C2 as stated: the concrete single-band (B = 1) 1×4×4 input
resampled to the 2×2 destination yields shape (2, 2), not (1, 2, 2) — the final
squeeze drops the band axis of extent 1. -/
theorem claim_C2_counterexample :
    resShape (parallel_gradient_search cKernel cData1 cSrcX cSrcY cDstX cDstY
        [2, 2] [2, 2]) = [2, 2]
    ∧ ([2, 2] : List Nat) ≠ [1, 2, 2] := by
  obtain ⟨out, ho, hshape⟩ := pgs_shape cKernel cData1 cSrcX cSrcY cDstX cDstY
    [2, 2] [2, 2] 1 2 2 2 2 2 2 (by decide) (by decide) rfl rfl (by decide)
    (by decide) (by decide) (by decide) (by decide) (by decide)
  constructor
  · rw [ho]
    show out.shape = [2, 2]
    rw [hshape]
    rfl
  · decide

/-- C6: inputs whose data rank is not 2 or 3 are rejected with the descriptive error
before any tiling work, for every kernel, coordinate set and chunk structure, and no
output is produced; rank-2 and rank-3 inputs are never rejected. -/
theorem claim_C6 (kernel : Nat → Nat → Nat → Nat → OQ)
    (dat sx sy dx dy : NDArr OQ) (chunks0 chunks1 : List Nat) :
    ((dat.shape.length ≠ 2 ∧ dat.shape.length ≠ 3) →
      parallel_gradient_search kernel dat sx sy dx dy chunks0 chunks1
        = Except.error "Gradient search resampling only supports 2D or 3D arrays.") ∧
    ((dat.shape.length = 2 ∨ dat.shape.length = 3) →
      ∃ out, parallel_gradient_search kernel dat sx sy dx dy chunks0 chunks1
        = Except.ok out) := by
  constructor
  · intro h
    simp only [parallel_gradient_search]
    rw [if_neg (by tauto)]
  · intro h
    simp only [parallel_gradient_search]
    rw [if_pos h]
    exact ⟨_, rfl⟩

/-- Witness for C6: a rank-4 input is rejected with the descriptive error, and the
concrete rank-3 input is accepted. -/
theorem claim_C6_witness :
    parallel_gradient_search cKernel (⟨[1, 1, 1, 1], [some 0]⟩ : NDArr OQ)
        cSrcX cSrcY cDstX cDstY [2, 2] [2, 2]
      = Except.error "Gradient search resampling only supports 2D or 3D arrays." ∧
    ∃ out, parallel_gradient_search cKernel cData1 cSrcX cSrcY cDstX cDstY [2, 2] [2, 2]
      = Except.ok out := by
  constructor
  · exact (claim_C6 cKernel (⟨[1, 1, 1, 1], [some 0]⟩ : NDArr OQ) cSrcX cSrcY cDstX cDstY
      [2, 2] [2, 2]).1 (by decide)
  · exact (claim_C6 cKernel cData1 cSrcX cSrcY cDstX cDstY [2, 2] [2, 2]).2 (by decide)

end PyGradient

